import Mathlib

/-!
Verification of the favicon-fetcher service core against its specification.

Each section shallowly embeds one component of the Go source:

* `src/pkg/ratelimit/ratelimit.go` — token-bucket rate limiter and client-IP
  extraction (claims about bucket invariants, burst defaults, IP parsing);
* `src/internal/cache/cache.go` — disk cache reads and the atomic write helper;
* the janitor (`purgeOnce`, `purgeBySizeLimit`) over an abstract quiescent
  file system modelled as a finite list of files;
* the singleflight `Group.Do` as a small-step interleaving semantics;
* `src/internal/image/process.go` — the blank/black heuristics and the
  resize step.

Machine floats from the Go source are embedded as rationals; `time.Time`
values are embedded as rationals (seconds) or integers (nanoseconds) as
noted per section.  Fallible operations take explicit oracles describing
the outcome of each I/O step.
-/

/-! ## Definitions -/

/-! ## Token bucket (src/pkg/ratelimit/ratelimit.go, lines 125–155)

`float64` fields are embedded as `ℚ`; `time.Time` as a rational number of
seconds, so `now.Sub(last).Seconds()` becomes plain subtraction.  The Go
`time` package uses a monotonic clock for `Sub` on values produced by
`time.Now()`, which is reflected by monotonicity hypotheses on the call
times where needed. -/
structure TokenBucket where
  rate : ℚ
  capacity : ℚ
  tokens : ℚ
  lastUpdate : ℚ
deriving Repr, DecidableEq

/-- Embeds `newTokenBucket` (ratelimit.go:125–132): the bucket starts full. -/
def newTokenBucket (rate capacity now : ℚ) : TokenBucket :=
  { rate := rate, capacity := capacity, tokens := capacity, lastUpdate := now }

/-- Embeds `TokenBucket.allow` (ratelimit.go:134–155).  Returns the boolean
result together with the updated bucket. -/
def TokenBucket.allow (b : TokenBucket) (now : ℚ) : Bool × TokenBucket :=
  let elapsed := now - b.lastUpdate
  let t1 := b.tokens + elapsed * b.rate
  let t2 := if t1 > b.capacity then b.capacity else t1
  if t2 ≥ 1 then
    (true, { b with tokens := t2 - 1, lastUpdate := now })
  else
    (false, { b with tokens := t2, lastUpdate := now })

/-- Runs a sequence of `allow` calls at the given times, returning each
call's result together with the bucket state after that call. -/
def TokenBucket.runAllow (b : TokenBucket) : List ℚ → List (Bool × TokenBucket)
  | [] => []
  | t :: ts =>
    let r := b.allow t
    r :: r.2.runAllow ts

/-- The bucket's refilled token level on a call at time `now`:
previous tokens plus elapsed × rate, clamped to capacity from above. -/
def TokenBucket.refill (b : TokenBucket) (now : ℚ) : ℚ :=
  min (b.tokens + (now - b.lastUpdate) * b.rate) b.capacity

/-- The token-bucket state invariant claimed by the spec. -/
def TBInv (b : TokenBucket) : Prop :=
  0 ≤ b.tokens ∧ b.tokens ≤ b.capacity

/-! ## Limiter construction and the burst default (ratelimit.go:39–60,
cmd/server/main.go:73–99) -/
structure Limiter where
  globalBucket : Option TokenBucket
  ipRate : Int
  ipBurst : Int
deriving Repr, DecidableEq

/-- Embeds `NewLimiter` (ratelimit.go:39–60).  Returns `none` (Go `nil`)
when both rates are 0; otherwise a limiter whose global bucket is created
only when the global rate is positive.  The 5-minute cleanup goroutine is
omitted: it never changes any bucket's rate or capacity. -/
def NewLimiter (globalRate globalBurst ipRate ipBurst : Int) (now : ℚ) :
    Option Limiter :=
  if globalRate = 0 ∧ ipRate = 0 then none
  else some
    { globalBucket :=
        if 0 < globalRate then
          some (newTokenBucket (globalRate : ℚ) (globalBurst : ℚ) now)
        else none,
      ipRate := ipRate, ipBurst := ipBurst }

/-- Embeds the bucket construction of `getOrCreateIPBucket`
(ratelimit.go:89–98) on first sight of an IP: a fresh bucket with the
limiter's per-IP rate and burst. -/
def Limiter.freshIPBucket (l : Limiter) (now : ℚ) : TokenBucket :=
  newTokenBucket (l.ipRate : ℚ) (l.ipBurst : ℚ) now

/-- Embeds the burst-default logic of `cmd/server/main.go` lines 77–82:
only the server's `main` replaces a zero burst flag by `rate * 2` before
calling `NewLimiter`. -/
def mainEffectiveBurst (rate burst : Int) : Int :=
  if burst = 0 ∧ 0 < rate then rate * 2 else burst

/-! ## Character-list strings

Go strings are embedded as `List Char` (named `Str`), with structural
re-implementations of the string operations the source uses, so that all
definitions evaluate inside the kernel. -/
abbrev Str := List Char

/-- Model of `strings.HasPrefix`. -/
def hasPre (pre s : Str) : Bool :=
  match pre, s with
  | [], _ => true
  | _ :: _, [] => false
  | a :: pre2, b :: s2 => a = b && hasPre pre2 s2

/-- Model of `strings.HasSuffix`. -/
def hasSuf (suf s : Str) : Bool :=
  hasPre suf.reverse s.reverse

/-- Model of `strings.TrimSuffix`: drops the suffix when present. -/
def trimSuf (s suf : Str) : Str :=
  if hasSuf suf s then s.take (s.length - suf.length) else s

/-- Model of `strings.Contains` for a nonempty pattern. -/
def containsSub (s pat : Str) : Bool :=
  match s with
  | [] => hasPre pat []
  | _ :: rest => hasPre pat s || containsSub rest pat

/-- Splits on a separator character (`strings.Split` with a one-character
separator). -/
def splitOnChar (c : Char) : Str → List Str
  | [] => [[]]
  | x :: rest =>
    match splitOnChar c rest with
    | [] => [[x]]
    | hd :: tl => if x = c then [] :: hd :: tl else (x :: hd) :: tl

/-- Joins with a separator character (`strings.Join`). -/
def joinWithChar (c : Char) : List Str → Str
  | [] => []
  | [s] => s
  | s :: rest => s ++ c :: joinWithChar c rest

/-! ## Atomic cache writes (src/internal/cache/cache.go, lines 161–193)

`atomicWriteFile` performs five fallible I/O steps.  We embed it against a
failure oracle saying which steps fail, and record the ordered file-system
events it performs; a small event semantics over a map path → contents
gives the resulting file system.  Bytes are `List Nat`.
`WriteOrigToCache`, `WriteOrigMeta` and `WriteResizedToCache`
(cache.go:93–95, 122–126, 138–140) are each a single call to
`atomicWriteFile` on their tier's path. -/
inductive WStep where
  | createTemp
  | writeData
  | syncData
  | closeFile
  | renameFile
deriving DecidableEq, Repr

inductive AwEvent where
  | created (name : Str)
  | wrote (name : Str) (data : List Nat)
  | synced (name : Str)
  | closed (name : Str)
  | renamed (src dst : Str)
  | removed (name : Str)
deriving DecidableEq, Repr

/-- A file system restricted to the finitely many paths a write touches:
path → contents, `none` = absent. -/
def FileSys : Type := Str → Option (List Nat)

def fsSet (fs : FileSys) (k : Str) (v : List Nat) : FileSys :=
  Function.update fs k (some v)

def fsDel (fs : FileSys) (k : Str) : FileSys :=
  Function.update fs k none

def applyEvent (fs : FileSys) : AwEvent → FileSys
  | .created n => fsSet fs n []
  | .wrote n d => fsSet fs n d
  | .synced _ => fs
  | .closed _ => fs
  | .renamed a b =>
    match fs a with
    | some v => fsSet (fsDel fs a) b v
    | none => fs
  | .removed n => fsDel fs n

def applyEvents (fs : FileSys) : List AwEvent → FileSys
  | [] => fs
  | e :: es => applyEvents (applyEvent fs e) es

/-- Models `filepath.Dir` on the clean slash-separated paths the cache
manager builds with `filepath.Join`. -/
def goDirName (p : Str) : Str :=
  let parts := splitOnChar '/' p
  if parts.length ≤ 1 then ['.'] else joinWithChar '/' parts.dropLast

/-- The temp-file name `os.CreateTemp(dir, ".tmp-*")` produces inside the
destination directory: the directory, a slash, then `.tmp-` followed by a
random string. -/
def tmpNameFor (p rand : Str) : Str :=
  goDirName p ++ ('/' :: '.' :: 't' :: 'm' :: 'p' :: '-' :: rand)

/-- Embeds `atomicWriteFile` (cache.go:161–193) against a failure oracle.
Returns the Go error result (`Except` with the failing step as the error)
together with the ordered list of file-system events performed, including
the `defer`red removal of the temp file on every non-success exit (the
code closes the temp before returning on write and sync failures). -/
def atomicWriteFile (failAt : WStep → Bool) (p rand : Str)
    (data : List Nat) : Except WStep Unit × List AwEvent :=
  if failAt .createTemp then (.error .createTemp, [])
  else
    let tn := tmpNameFor p rand
    if failAt .writeData then
      (.error .writeData, [.created tn, .closed tn, .removed tn])
    else if failAt .syncData then
      (.error .syncData, [.created tn, .wrote tn data, .closed tn, .removed tn])
    else if failAt .closeFile then
      (.error .closeFile, [.created tn, .wrote tn data, .synced tn, .removed tn])
    else if failAt .renameFile then
      (.error .renameFile,
       [.created tn, .wrote tn data, .synced tn, .closed tn, .removed tn])
    else
      (.ok (),
       [.created tn, .wrote tn data, .synced tn, .closed tn, .renamed tn p])

/-- The specific failure oracle of the witness: only the fsync step fails. -/
def failAtSync (s : WStep) : Bool := s = .syncData

/-- The concrete starting file system of the witness: the destination path
holds bytes `[1]`, nothing else exists. -/
def fsC3 : FileSys := fun k => if k = "c/orig/k".data then some [1] else none

/-! ## Cache reads (src/internal/cache/cache.go, lines 74–89 and 144–159)

A read performs two fallible I/O steps: `os.Stat` and `os.ReadFile`.  The
oracle records each step's outcome in a racy environment (the janitor may
delete the file in between).  Times are integers (nanoseconds);
`time.Since(mtime) > TTL` becomes `now - mtime > ttl`.  Neither Go
function has an error return value: the result type is exactly
`(bytes, ok)` resp. `(bytes, ok, mtime)`. -/
structure ReadOracle where
  statResult : Option Int
  readResult : Option (List Nat)
deriving DecidableEq, Repr

/-- Embeds `ReadOrigFromCache` (cache.go:74–89). -/
def ReadOrigFromCache (o : ReadOracle) (now ttl : Int) :
    Option (List Nat) × Bool :=
  match o.statResult with
  | none => (none, false)
  | some mtime =>
    if now - mtime > ttl then (none, false)
    else
      match o.readResult with
      | none => (none, false)
      | some b => (some b, true)

/-- Embeds `ReadResizedFromCacheWithMod` (cache.go:144–159).  Go's zero
`time.Time` on the miss paths is embedded as mtime 0. -/
def ReadResizedFromCacheWithMod (o : ReadOracle) (now ttl : Int) :
    Option (List Nat) × Bool × Int :=
  match o.statResult with
  | none => (none, false, 0)
  | some mtime =>
    if now - mtime > ttl then (none, false, 0)
    else
      match o.readResult with
      | none => (none, false, 0)
      | some b => (some b, true, mtime)

/-! ## Janitor (src/unnamed/part_003, lines 45–220)

The cache root is modelled as a finite list of files (path, mtime, size);
the sweep runs against a quiescent root, so every stat and remove
succeeds.  Times are integers (seconds); the 5-minute temp sweep age is
300.  `part_002` contains a superseded draft of the same functions
(without meta/temp handling); `part_003` is the version the spec
describes and is embedded here.

`sort.Slice(files, …mtime.Before…)` sorts the collected payloads by
ascending mtime (ties in unspecified order); it is modelled by Mathlib's
`insertionSort` under `mtimeLE`, one sorted-by-mtime arrangement. -/
structure CFile where
  path : Str
  mtime : Int
  size : Int
deriving DecidableEq, Repr

/-- Embeds `isCacheFile` (part_003:215–220): the path contains `/orig/`,
`/resized/` or `/fallback/` as a component (separator `/` on Linux). -/
def isCacheFile (p : Str) : Bool :=
  containsSub p ("/orig/".data) || containsSub p ("/resized/".data) ||
    containsSub p ("/fallback/".data)

/-- Models `filepath.Base` on the clean slash-separated paths produced by
`filepath.WalkDir`. -/
def goBase (p : Str) : Str :=
  match (splitOnChar '/' p).getLast? with
  | some b => b
  | none => p

/-- The walk's temp-file class (part_003:73–77): a cache file whose
basename starts with `.tmp-`. -/
def isTempFile (p : Str) : Bool :=
  isCacheFile p && hasPre (".tmp-".data) (goBase p)

/-- The walk's validator-sidecar class (part_003:79–81): a cache file,
not a temp file, with suffix `.meta`. -/
def isMetaFile (p : Str) : Bool :=
  isCacheFile p && !hasPre (".tmp-".data) (goBase p) &&
    hasSuf (".meta".data) p

/-- The walk's payload class (part_003:82–84): a cache file that is
neither a temp file nor a validator sidecar. -/
def isPayloadFile (p : Str) : Bool :=
  isCacheFile p && !hasPre (".tmp-".data) (goBase p) &&
    !hasSuf (".meta".data) p

/-- The payload path paired with a `.meta` sidecar path
(`strings.TrimSuffix(p, ".meta")`, part_003:80). -/
def metaBase (p : Str) : Str :=
  trimSuf p (".meta".data)

def sumSizes (l : List CFile) : Int :=
  (l.map (·.size)).sum

def payloadTotal (l : List CFile) : Int :=
  sumSizes (l.filter (fun f => isPayloadFile f.path))

def mtimeLE (a b : CFile) : Prop := a.mtime ≤ b.mtime

instance : DecidableRel mtimeLE := fun a b => Int.decLe a.mtime b.mtime

instance : IsTotal CFile mtimeLE := ⟨fun a b => Int.le_total a.mtime b.mtime⟩

instance : IsTrans CFile mtimeLE := ⟨fun _ _ _ => Int.le_trans⟩

/-- The eviction loop of `purgeBySizeLimit` (part_003:191–207): walk the
mtime-sorted payloads, removing while the running total still exceeds the
limit.  Returns (removed files in removal order, files left in place). -/
def evictLoop (maxSize : Int) : List CFile → Int → List CFile × List CFile
  | [], _ => ([], [])
  | f :: rest, total =>
    if total ≤ maxSize then ([], f :: rest)
    else
      let r := evictLoop maxSize rest (total - f.size)
      (f :: r.1, r.2)

/-- The payloads `purgeBySizeLimit` (part_003:147–213) removes, in removal
order; empty when the payload total is within the limit. -/
def sizeLimitVictims (fs : List CFile) (maxSize : Int) : List CFile :=
  let files := fs.filter (fun f => isPayloadFile f.path)
  let total := sumSizes files
  if total ≤ maxSize ∨ files.isEmpty then []
  else (evictLoop maxSize (List.insertionSort mtimeLE files) total).1

/-- Embeds `purgeBySizeLimit` (part_003:147–213): size accounting over
payload files only (meta and `.tmp-` files skipped), ascending-mtime
eviction until the total is within the limit, removing each victim's
`<path>.meta` sidecar along with it. -/
def purgeBySizeLimit (fs : List CFile) (maxSize : Int) : List CFile :=
  let victims := (sizeLimitVictims fs maxSize).map (·.path)
  fs.filter (fun f =>
    ¬(f.path ∈ victims ∨
      (hasSuf (".meta".data) f.path = true ∧ metaBase f.path ∈ victims)))

/-- The janitor's 5-minute temp-file sweep age (part_003:123), in seconds. -/
def fiveMinutes : Int := 300

/-- Phase 1 of `purgeOnce` (part_003:94–111): the walked payload paths
whose mtime is strictly before the expiry cutoff. -/
def expiredPayloadPaths (fs : List CFile) (expireBefore : Int) : List Str :=
  ((fs.filter (fun f => isPayloadFile f.path)).filter
    (fun f => f.mtime < expireBefore)).map (·.path)

/-- Phase 1 of `purgeOnce`: remove every expired payload, and with each
removed payload its paired `.meta` sidecar found by the walk. -/
def phase1Expiry (fs : List CFile) (expireBefore : Int) : List CFile :=
  fs.filter (fun f =>
    ¬(f.path ∈ expiredPayloadPaths fs expireBefore ∨
      (isMetaFile f.path = true ∧
       metaBase f.path ∈ expiredPayloadPaths fs expireBefore)))

/-- Phase 2 of `purgeOnce` (part_003:113–120): remove every sidecar whose
base is not among the payload paths collected by the walk. -/
def phase2Orphans (walkPayloadPaths : List Str) (fs : List CFile) :
    List CFile :=
  fs.filter (fun f =>
    ¬(isMetaFile f.path = true ∧ metaBase f.path ∉ walkPayloadPaths))

/-- Phase 3 of `purgeOnce` (part_003:122–134): remove every temp file
older than 5 minutes. -/
def phase3Temps (fs : List CFile) (now : Int) : List CFile :=
  fs.filter (fun f =>
    ¬(isTempFile f.path = true ∧ f.mtime < now - fiveMinutes))

/-- Embeds `purgeOnce` (part_003:45–145) over a quiescent root: phase 1
removes expired payloads together with their paired sidecars, phase 2
removes orphan sidecars (base not among the walked payloads), phase 3
removes temp files older than 5 minutes, and phase 4 applies the size
limit when one is configured. -/
def purgeOnce (fs : List CFile) (now ttl maxSize : Int) : List CFile :=
  let afterTemps :=
    phase3Temps
      (phase2Orphans ((fs.filter (fun f => isPayloadFile f.path)).map (·.path))
        (phase1Expiry fs (now - ttl)))
      now
  if 0 < maxSize then purgeBySizeLimit afterTemps maxSize else afterTemps

/-- The concrete quiescent cache root used by the janitor witnesses:
a fresh payload with sidecar, an expired payload with sidecar, an orphan
sidecar, an old temp file and a large fresh payload. -/
def exJanitorFs : List CFile :=
  [⟨"/c/orig/a".data, 600, 10⟩,
   ⟨"/c/orig/a.meta".data, 600, 1⟩,
   ⟨"/c/orig/b".data, 5, 10⟩,
   ⟨"/c/orig/b.meta".data, 5, 1⟩,
   ⟨"/c/orig/c.meta".data, 900, 1⟩,
   ⟨"/c/orig/.tmp-x".data, 100, 3⟩,
   ⟨"/c/resized/d".data, 800, 50⟩]

/-! ## Image heuristics (src/internal/image/process.go, lines 102–167)

An image is its integer pixel bounds plus the `RGBA()` 16-bit channel
values at each coordinate; `img.At(x,y).RGBA()` becomes `px x y` and
`r >> 8` becomes `/ 256`.  A Go `nil` image is `none`.  The sampling
loops `for v := b.Min; v < b.Max; v += step` are embedded as explicit
coordinate lists. -/
structure GoImage where
  minX : Int
  minY : Int
  maxX : Int
  maxY : Int
  px : Int → Int → Nat × Nat × Nat × Nat

def GoImage.dx (img : GoImage) : Int := img.maxX - img.minX

def GoImage.dy (img : GoImage) : Int := img.maxY - img.minY

/-- The coordinates visited by `for v := lo; v < hi; v += step` for a
positive step. -/
def gridCoords (lo hi : Int) (step : Nat) : List Int :=
  (List.range (((hi - lo).toNat + step - 1) / step)).map
    (fun k => lo + (k : Int) * (step : Int))

/-- The stride `max(w/20, 1)` resp. `max(h/20, 1)` (process.go:111, 139);
both heuristics guard `w ≤ 0 ∨ h ≤ 0` before sampling, so the `Nat`
division agrees with Go's `int` division. -/
def sampleStepX (img : GoImage) : Nat := max (img.dx.toNat / 20) 1

def sampleStepY (img : GoImage) : Nat := max (img.dy.toNat / 20) 1

/-- The row-major sample grid both heuristics walk. -/
def samplePoints (img : GoImage) : List (Int × Int) :=
  (gridCoords img.minY img.maxY (sampleStepY img)).flatMap
    (fun y => (gridCoords img.minX img.maxX (sampleStepX img)).map
      (fun x => (x, y)))

/-- Half-opaque test `a >= 0x8000` (process.go:116, 144). -/
def isOpaqueAt (img : GoImage) (p : Int × Int) : Bool :=
  0x8000 ≤ (img.px p.1 p.2).2.2.2

/-- The `IsNearlyBlank` counting condition (process.go:117–118): at least
half-opaque and not near-white at the >250 threshold. -/
def nbQualifies (img : GoImage) (p : Int × Int) : Bool :=
  let c := img.px p.1 p.2
  isOpaqueAt img p &&
    !(250 < c.1 / 256 && 250 < c.2.1 / 256 && 250 < c.2.2.1 / 256)

/-- The `IsNearlyBlankOrBlack` near-black test (process.go:147). -/
def isBlackAt (img : GoImage) (p : Int × Int) : Bool :=
  let c := img.px p.1 p.2
  c.1 / 256 < 15 && c.2.1 / 256 < 15 && c.2.2.1 / 256 < 15

/-- The `IsNearlyBlankOrBlack` near-white test (process.go:148). -/
def isWhite240At (img : GoImage) (p : Int × Int) : Bool :=
  let c := img.px p.1 p.2
  240 < c.1 / 256 && 240 < c.2.1 / 256 && 240 < c.2.2.1 / 256

/-- The `IsNearlyBlankOrBlack` "colored" condition (process.go:149):
half-opaque and neither near-black nor near-white. -/
def coloredAt (img : GoImage) (p : Int × Int) : Bool :=
  isOpaqueAt img p && !isBlackAt img p && !isWhite240At img p

/-- The counting loop of `IsNearlyBlank` (process.go:112–127), with its
early `return false` once the count exceeds 3. -/
def nearlyBlankLoop (img : GoImage) : List (Int × Int) → Nat → Bool
  | [], _ => true
  | p :: rest, count =>
    if nbQualifies img p then
      if 3 < count + 1 then false
      else nearlyBlankLoop img rest (count + 1)
    else nearlyBlankLoop img rest count

/-- Embeds `IsNearlyBlank` (process.go:102–128). -/
def IsNearlyBlank (img : Option GoImage) : Bool :=
  match img with
  | none => true
  | some img =>
    if img.dx ≤ 0 ∨ img.dy ≤ 0 then true
    else nearlyBlankLoop img (samplePoints img) 0

def opaqueCount (img : GoImage) : Nat :=
  (samplePoints img).countP (isOpaqueAt img)

def coloredCount (img : GoImage) : Nat :=
  (samplePoints img).countP (coloredAt img)

/-- Embeds `IsNearlyBlankOrBlack` (process.go:130–156): reject when fewer
than 5 half-opaque samples or fewer than 3 colored samples. -/
def IsNearlyBlankOrBlack (img : Option GoImage) : Bool :=
  match img with
  | none => true
  | some img =>
    if img.dx ≤ 0 ∨ img.dy ≤ 0 then true
    else opaqueCount img < 5 || coloredCount img < 3

/-- Counterexample image for C8: a 5×1 image with three opaque pure-red
pixels and two opaque pure-white pixels.  `IsNearlyBlank` counts only the
three reds (whites exceed the 250 threshold) and accepts; the blank-or-
black filter sees 5 opaque samples of which 3 are colored and rejects
neither condition, so it returns false. -/
def exRedWhiteImage : GoImage :=
  { minX := 0, minY := 0, maxX := 5, maxY := 1,
    px := fun x _ =>
      if x < 3 then (0xffff, 0, 0, 0xffff)
      else (0xffff, 0xffff, 0xffff, 0xffff) }

/-! ## Resize (src/internal/image/process.go, lines 158–167)

`ResizeImage` either returns the input unchanged (when its bounds are
already size×size) or draws it with `draw.CatmullRom.Scale` over a fresh
`image.NewRGBA(image.Rect(0,0,size,size))`, whose pixels are all zero —
a fully transparent background.  Only the bounds matter for the claim, so
an image is represented by its bounds rectangle. -/
structure GoRect where
  minX : Int
  minY : Int
  maxX : Int
  maxY : Int
deriving DecidableEq, Repr

/-- `image.Rect(x0,y0,x1,y1)`: swaps coordinates per axis when needed so
the rectangle is well-formed. -/
def goRect (x0 y0 x1 y1 : Int) : GoRect :=
  { minX := min x0 x1, minY := min y0 y1, maxX := max x0 x1, maxY := max y0 y1 }

def GoRect.dx (r : GoRect) : Int := r.maxX - r.minX

def GoRect.dy (r : GoRect) : Int := r.maxY - r.minY

/-- The two shapes a `ResizeImage` result can take: the input image
passed through unchanged, or a Catmull-Rom resampling of the source
drawn (`draw.Over`) onto the fresh transparent destination. -/
inductive ResizeResult where
  | passthrough (bounds : GoRect)
  | catmullRomOnTransparent (dst src : GoRect)
deriving DecidableEq, Repr

/-- Embeds `ResizeImage` (process.go:158–167). -/
def ResizeImage (bounds : GoRect) (size : Int) : ResizeResult :=
  if bounds.dx = size ∧ bounds.dy = size then .passthrough bounds
  else .catmullRomOnTransparent (goRect 0 0 size size) bounds

def ResizeResult.outBounds : ResizeResult → GoRect
  | .passthrough b => b
  | .catmullRomOnTransparent d _ => d

/-! ## Client-IP extraction (src/pkg/ratelimit/ratelimit.go, lines 178–237)

`net.ParseIP` (Go ≥ 1.17) accepts a string iff `netip.ParseAddr` parses
it and the zone is empty; `netip.ParseAddr` dispatches on the first of
`.`, `:`, `%` to the IPv4 or IPv6 parser.  Both parsers are translated
below from `net/netip`; the IPv6 loop uses an explicit fuel argument
(`length + 1` suffices since every iteration consumes at least one
character).  Only validity is modelled: the byte value of a parsed
address is never used by `ratelimit.go`. -/
def hexVal (c : Char) : Option Nat :=
  if '0' ≤ c ∧ c ≤ '9' then some (c.toNat - '0'.toNat)
  else if 'a' ≤ c ∧ c ≤ 'f' then some (c.toNat - 'a'.toNat + 10)
  else if 'A' ≤ c ∧ c ≤ 'F' then some (c.toNat - 'A'.toNat + 10)
  else none

/-- The field loop of `netip.parseIPv4`: four decimal fields separated by
dots, each with at least one digit, value ≤ 255, and no leading zero.
Arguments: remaining input, current field value, digits seen in the
current field, completed fields. -/
def parseIPv4Loop : Str → Nat → Nat → Nat → Bool
  | [], _, _, pos => pos = 3
  | c :: rest, val, digLen, pos =>
    if '0' ≤ c ∧ c ≤ '9' then
      if digLen = 1 ∧ val = 0 then false
      else
        let val2 := val * 10 + (c.toNat - '0'.toNat)
        if 255 < val2 then false
        else parseIPv4Loop rest val2 (digLen + 1) pos
    else if c = '.' then
      if digLen = 0 then false
      else if rest = [] then false
      else if pos = 3 then false
      else parseIPv4Loop rest 0 0 (pos + 1)
    else false

def parseIPv4 (s : Str) : Bool := parseIPv4Loop s 0 0 0

/-- The hex-field scan inside `netip.parseIPv6`: consume leading hex
digits; `none` on 16-bit overflow, else (digits consumed, value, rest). -/
def scanHexField : Str → Nat → Nat → Option (Nat × Nat × Str)
  | [], off, acc => some (off, acc, [])
  | c :: rest, off, acc =>
    match hexVal c with
    | none => some (off, acc, c :: rest)
    | some d =>
      let acc2 := acc * 16 + d
      if 0xFFFF < acc2 then none
      else scanHexField rest (off + 1) acc2

/-- The final checks of `netip.parseIPv6` once the input is consumed:
fewer than 16 bytes requires a `::`, exactly 16 forbids one. -/
def v6Final (i : Nat) (hasEll : Bool) : Bool :=
  if i < 16 then hasEll else !hasEll

/-- The main loop of `netip.parseIPv6` over the zone-free input:
`i` counts bytes filled, `hasEll` whether a `::` was seen. -/
def parseIPv6Loop : Nat → Str → Nat → Bool → Bool
  | 0, _, _, _ => false
  | fuel + 1, s, i, hasEll =>
    if 16 ≤ i then
      s = [] && !hasEll
    else
      match scanHexField s 0 0 with
      | none => false
      | some (off, _, rest) =>
        if off = 0 then false
        else
          match rest with
          | '.' :: _ =>
            if !hasEll ∧ i ≠ 12 then false
            else if 16 < i + 4 then false
            else if parseIPv4 s then v6Final (i + 4) hasEll
            else false
          | [] => v6Final (i + 2) hasEll
          | ':' :: rest2 =>
            if rest2 = [] then false
            else
              match rest2 with
              | ':' :: rest3 =>
                if hasEll then false
                else if rest3 = [] then v6Final (i + 2) true
                else parseIPv6Loop fuel rest3 (i + 2) true
              | _ => parseIPv6Loop fuel rest2 (i + 2) hasEll
          | _ => false

/-- Splits a zone suffix at the first `%` (netip's `parseIPv6` zone
handling). -/
def splitZone : Str → Str × Option Str
  | [] => ([], none)
  | c :: rest =>
    if c = '%' then ([], some rest)
    else
      let r := splitZone rest
      (c :: r.1, r.2)

/-- Embeds `netip.parseIPv6`: (parses successfully, carries a zone). -/
def parseIPv6 (sIn : Str) : Bool × Bool :=
  let z := splitZone sIn
  match z.2 with
  | some zone =>
    if zone = [] then (false, true)
    else (parseIPv6Body z.1, true)
  | none => (parseIPv6Body z.1, false)
where
  parseIPv6Body (s : Str) : Bool :=
    match s with
    | ':' :: ':' :: rest =>
      if rest = [] then true
      else parseIPv6Loop (rest.length + 1) rest 0 true
    | _ => parseIPv6Loop (s.length + 1) s 0 false

/-- The dispatch scan of `netip.ParseAddr`: the first `.`, `:` or `%`
decides the parser (`none` = immediate error). -/
def parseAddrKindScan : Str → Option Bool
  | [] => none
  | c :: rest =>
    if c = '.' then some true
    else if c = ':' then some false
    else if c = '%' then none
    else parseAddrKindScan rest

/-- Embeds the validity of Go's `net.ParseIP`: `netip.ParseAddr`
succeeds and the address carries no zone. -/
def goParseIPValid (s : Str) : Bool :=
  match parseAddrKindScan s with
  | some true => parseIPv4 s
  | some false => (parseIPv6 s).1 && !(parseIPv6 s).2
  | none => false

/-- Embeds `trimSpace` (ratelimit.go:224–237): strips spaces and tabs
from both ends. -/
def trimSpace (s : Str) : Str :=
  ((s.dropWhile (fun c => c = ' ' ∨ c = '\t')).reverse.dropWhile
    (fun c => c = ' ' ∨ c = '\t')).reverse

/-- Embeds `parseIP` (ratelimit.go:204–222): truncate at the first
comma, trim ASCII whitespace, return the candidate when `net.ParseIP`
accepts it and `""` otherwise. -/
def parseIP (s : Str) : Str :=
  let s2 := s.takeWhile (fun c => ¬(c = ','))
  let s3 := trimSpace s2
  if goParseIPValid s3 then s3 else []

/-- First index of a character (`strings.IndexByte`). -/
def firstIdx (s : Str) (c : Char) : Option Nat :=
  match s with
  | [] => none
  | x :: rest =>
    if x = c then some 0
    else (firstIdx rest c).map (· + 1)

/-- Last index of a character (net's `last` helper). -/
def lastIdx (s : Str) (c : Char) : Option Nat :=
  match s with
  | [] => none
  | x :: rest =>
    match lastIdx rest c with
    | some i => some (i + 1)
    | none => if x = c then some 0 else none

/-- Embeds `net.SplitHostPort`: `some (host, port)` on success, `none`
on any of its address errors. -/
def SplitHostPort (hostport : Str) : Option (Str × Str) :=
  match lastIdx hostport ':' with
  | none => none
  | some i =>
    if hostport.head? = some '[' then
      match firstIdx hostport ']' with
      | none => none
      | some endIdx =>
        if endIdx + 1 = hostport.length then none
        else if endIdx + 1 = i then
          let host := (hostport.drop 1).take (endIdx - 1)
          if firstIdx (hostport.drop 1) '[' ≠ none then none
          else if firstIdx (hostport.drop (endIdx + 1)) ']' ≠ none then none
          else some (host, hostport.drop (i + 1))
        else none
    else
      let host := hostport.take i
      if firstIdx host ':' ≠ none then none
      else if firstIdx hostport '[' ≠ none then none
      else if firstIdx hostport ']' ≠ none then none
      else some (host, hostport.drop (i + 1))

/-- The three request fields `getClientIP` reads; a `Header.Get` on an
absent header yields the empty string. -/
structure HTTPRequest where
  xForwardedFor : Str
  xRealIP : Str
  remoteAddr : Str

/-- Embeds `getClientIP` (ratelimit.go:178–202). -/
def getClientIP (r : HTTPRequest) : Str :=
  if r.xForwardedFor ≠ [] ∧ parseIP r.xForwardedFor ≠ [] then
    parseIP r.xForwardedFor
  else if r.xRealIP ≠ [] ∧ parseIP r.xRealIP ≠ [] then
    parseIP r.xRealIP
  else
    match SplitHostPort r.remoteAddr with
    | none => r.remoteAddr
    | some hp => hp.1

/-- The claim's reading of the X-Forwarded-For handling, from the spec's
words: the first comma-separated element that trims to a valid IP. -/
def specFirstValidXffIP (xff : Str) : Option Str :=
  ((splitOnChar ',' xff).map trimSpace).find? (fun e => goParseIPValid e)

/-! ## Singleflight (src/unnamed/part_003, lines 221–277)

`Group.Do` is embedded as a small-step interleaving semantics over one
key.  Each thread performs one `Do(key, fn)` call; each mutex-protected
map operation is one atomic step, and the owner's `c.val, c.err = fn()`,
its `wg.Done()`, the `delete(g.m, key)` and the final read of
`c.val, c.err` are separate steps; a waiter blocks until the record is
done and then reads it.  A result pairs the bytes with an optional error
string; `fn`'s result is chosen nondeterministically at the `fnReturns`
step, so impure functions are covered.  Call records carry a ghost id
from a counter and a ghost `execs` field counting executions of `fn`. -/
abbrev SFRes := List Nat × Option String

inductive SFPc where
  | start
  | waiting (c : Nat)
  | running (c : Nat)
  | assigned (c : Nat) (r : SFRes)
  | signaled (c : Nat) (r : SFRes)
  | deleted (c : Nat) (r : SFRes)
  | finished (c : Nat) (r : SFRes)
deriving DecidableEq, Repr

structure SFCall where
  val : Option SFRes
  done : Bool
  execs : Nat
deriving DecidableEq, Repr

structure SFState (n : Nat) where
  current : Option Nat
  calls : Nat → SFCall
  pcs : Fin n → SFPc
  nextId : Nat

def SFState.init (n : Nat) : SFState n :=
  { current := none, calls := fun _ => ⟨none, false, 0⟩,
    pcs := fun _ => .start, nextId := 0 }

inductive SFStep {n : Nat} : SFState n → SFState n → Prop
  | enterJoin (t : Fin n) (c : Nat) (s : SFState n)
      (hpc : s.pcs t = .start) (hcur : s.current = some c) :
      SFStep s { s with pcs := Function.update s.pcs t (.waiting c) }
  | enterOwn (t : Fin n) (s : SFState n)
      (hpc : s.pcs t = .start) (hcur : s.current = none) :
      SFStep s { s with
        current := some s.nextId,
        pcs := Function.update s.pcs t (.running s.nextId),
        nextId := s.nextId + 1 }
  | fnReturns (t : Fin n) (c : Nat) (r : SFRes) (s : SFState n)
      (hpc : s.pcs t = .running c) :
      SFStep s { s with
        calls := Function.update s.calls c
          ⟨some r, (s.calls c).done, (s.calls c).execs + 1⟩,
        pcs := Function.update s.pcs t (.assigned c r) }
  | wgDone (t : Fin n) (c : Nat) (r : SFRes) (s : SFState n)
      (hpc : s.pcs t = .assigned c r) :
      SFStep s { s with
        calls := Function.update s.calls c
          ⟨(s.calls c).val, true, (s.calls c).execs⟩,
        pcs := Function.update s.pcs t (.signaled c r) }
  | mapDelete (t : Fin n) (c : Nat) (r : SFRes) (s : SFState n)
      (hpc : s.pcs t = .signaled c r) :
      SFStep s { s with
        current := none,
        pcs := Function.update s.pcs t (.deleted c r) }
  | ownerReturns (t : Fin n) (c : Nat) (r v : SFRes) (s : SFState n)
      (hpc : s.pcs t = .deleted c r) (hval : (s.calls c).val = some v) :
      SFStep s { s with pcs := Function.update s.pcs t (.finished c v) }
  | waiterReturns (t : Fin n) (c : Nat) (v : SFRes) (s : SFState n)
      (hpc : s.pcs t = .waiting c) (hdone : (s.calls c).done = true)
      (hval : (s.calls c).val = some v) :
      SFStep s { s with pcs := Function.update s.pcs t (.finished c v) }

def SFReachable {n : Nat} (s : SFState n) : Prop :=
  Relation.ReflTransGen SFStep (SFState.init n) s

/-- The call a thread currently owns (insert performed, delete's effects
not yet complete). -/
def ownerOf : SFPc → Option Nat
  | .running c => some c
  | .assigned c _ => some c
  | .signaled c _ => some c
  | .deleted c _ => some c
  | _ => none

/-- The call a thread's program counter refers to, if any. -/
def refOf : SFPc → Option Nat
  | .start => none
  | .waiting c => some c
  | .running c => some c
  | .assigned c _ => some c
  | .signaled c _ => some c
  | .deleted c _ => some c
  | .finished c _ => some c

structure SFInv {n : Nat} (s : SFState n) : Prop where
  ref_lt : ∀ t c, refOf (s.pcs t) = some c → c < s.nextId
  cur_lt : ∀ c, s.current = some c → c < s.nextId
  fresh : ∀ c, s.nextId ≤ c → s.calls c = ⟨none, false, 0⟩
  owner_unique : ∀ t1 t2 c, ownerOf (s.pcs t1) = some c →
    ownerOf (s.pcs t2) = some c → t1 = t2
  running_fresh : ∀ t c, s.pcs t = .running c → s.calls c = ⟨none, false, 0⟩
  owned_val : ∀ t c r, s.pcs t = .assigned c r ∨ s.pcs t = .signaled c r ∨
    s.pcs t = .deleted c r → (s.calls c).val = some r ∧ (s.calls c).execs = 1
  done_execs : ∀ c, (s.calls c).done = true → (s.calls c).execs = 1
  execs_le : ∀ c, (s.calls c).execs ≤ 1
  finished_val : ∀ t c r, s.pcs t = .finished c r →
    (s.calls c).val = some r ∧ (s.calls c).execs = 1

/-- The result the witness execution's function returns. -/
def sfRes1 : SFRes := ([42], none)

def sfS0 : SFState 2 := SFState.init 2

def sfS1 : SFState 2 :=
  { sfS0 with
    current := some sfS0.nextId,
    pcs := Function.update sfS0.pcs 0 (.running sfS0.nextId),
    nextId := sfS0.nextId + 1 }

def sfS2 : SFState 2 :=
  { sfS1 with pcs := Function.update sfS1.pcs 1 (.waiting 0) }

def sfS3 : SFState 2 :=
  { sfS2 with
    calls := Function.update sfS2.calls 0
      ⟨some sfRes1, (sfS2.calls 0).done, (sfS2.calls 0).execs + 1⟩,
    pcs := Function.update sfS2.pcs 0 (.assigned 0 sfRes1) }

def sfS4 : SFState 2 :=
  { sfS3 with
    calls := Function.update sfS3.calls 0
      ⟨(sfS3.calls 0).val, true, (sfS3.calls 0).execs⟩,
    pcs := Function.update sfS3.pcs 0 (.signaled 0 sfRes1) }

def sfS5 : SFState 2 :=
  { sfS4 with
    current := none,
    pcs := Function.update sfS4.pcs 0 (.deleted 0 sfRes1) }

def sfS6 : SFState 2 :=
  { sfS5 with pcs := Function.update sfS5.pcs 0 (.finished 0 sfRes1) }

def sfS7 : SFState 2 :=
  { sfS6 with pcs := Function.update sfS6.pcs 1 (.finished 0 sfRes1) }

/-! ## Theorems -/

theorem TokenBucket.allow_eq (b : TokenBucket) (now : ℚ) :
    b.allow now =
      (decide (1 ≤ b.refill now),
       { b with
          tokens := if 1 ≤ b.refill now then b.refill now - 1 else b.refill now,
          lastUpdate := now }) := by
  unfold TokenBucket.allow TokenBucket.refill
  rcases le_or_lt (b.tokens + (now - b.lastUpdate) * b.rate) b.capacity with h | h
  · simp only [not_lt.mpr h, if_neg (lt_irrefl _), min_eq_left h]
    by_cases h1 : b.tokens + (now - b.lastUpdate) * b.rate ≥ 1
    · simp [h1, not_lt.mpr h, ge_iff_le]
    · simp [h1, not_lt.mpr h, ge_iff_le]
  · simp only [min_eq_right (le_of_lt h)]
    by_cases h1 : b.capacity ≥ 1
    · simp [h, h1, ge_iff_le]
    · simp [h, h1, ge_iff_le]

theorem TokenBucket.allow_fields (b : TokenBucket) (now : ℚ) :
    (b.allow now).2.rate = b.rate ∧ (b.allow now).2.capacity = b.capacity ∧
    (b.allow now).2.lastUpdate = now := by
  rw [TokenBucket.allow_eq]
  exact ⟨rfl, rfl, rfl⟩

theorem TBInv_allow (b : TokenBucket) (now : ℚ) (hr : 0 ≤ b.rate)
    (hmono : b.lastUpdate ≤ now) (hinv : TBInv b) : TBInv (b.allow now).2 := by
  obtain ⟨h0, hc⟩ := hinv
  have hrefill0 : 0 ≤ b.refill now := by
    apply le_min
    · have : 0 ≤ (now - b.lastUpdate) * b.rate :=
        mul_nonneg (by linarith) hr
      linarith
    · linarith
  have hrefillc : b.refill now ≤ b.capacity := min_le_right _ _
  rw [TokenBucket.allow_eq]
  by_cases h1 : 1 ≤ b.refill now
  · constructor
    · simp only [TBInv, if_pos h1]
      linarith
    · simp only [TBInv, if_pos h1]
      linarith
  · constructor
    · simp only [TBInv, if_neg h1]
      exact hrefill0
    · simp only [TBInv, if_neg h1]
      exact hrefillc

theorem TBInv_runAllow (times : List ℚ) (b : TokenBucket) (hr : 0 ≤ b.rate)
    (hmono : List.Chain (· ≤ ·) b.lastUpdate times) (hinv : TBInv b) :
    ∀ p ∈ b.runAllow times, TBInv p.2 := by
  induction times generalizing b with
  | nil => intro p hp; simp [TokenBucket.runAllow] at hp
  | cons t ts ih =>
    intro p hp
    rw [List.chain_cons] at hmono
    obtain ⟨hle, hchain⟩ := hmono
    simp only [TokenBucket.runAllow, List.mem_cons] at hp
    have hinv2 : TBInv (b.allow t).2 := TBInv_allow b t hr hle hinv
    rcases hp with rfl | hp
    · exact hinv2
    · have hfields := TokenBucket.allow_fields b t
      apply ih (b.allow t).2 (by rw [hfields.1]; exact hr) _ hinv2 p hp
      rw [hfields.2.2]
      exact hchain

/-- C6: For every token bucket built by `newTokenBucket` with nonnegative
rate and capacity (the server constructs buckets from nonnegative flag
values) and every monotone sequence of `allow()` call times (the Go code
reads a monotonic clock under the bucket mutex): `0 ≤ tokens ≤ capacity`
holds before and after each call, and each call first refills the tokens
by `(now − lastUpdate) × rate` clamped to capacity, then consumes exactly
one token and returns true iff the refilled level is at least 1, otherwise
returns false and consumes nothing. -/
theorem tokenBucket_invariant_and_step (rate capacity t0 : ℚ)
    (hr : 0 ≤ rate) (hc : 0 ≤ capacity) (times : List ℚ)
    (hmono : List.Chain (· ≤ ·) t0 times) :
    TBInv (newTokenBucket rate capacity t0) ∧
    (∀ p ∈ (newTokenBucket rate capacity t0).runAllow times, TBInv p.2) ∧
    (∀ b : TokenBucket, ∀ now : ℚ,
      b.allow now =
        (decide (1 ≤ b.refill now),
         { b with
            tokens := if 1 ≤ b.refill now then b.refill now - 1 else b.refill now,
            lastUpdate := now })) := by
  refine ⟨⟨hc, le_refl _⟩, ?_, fun b now => TokenBucket.allow_eq b now⟩
  exact TBInv_runAllow times (newTokenBucket rate capacity t0) hr hmono ⟨hc, le_refl _⟩

/-- Witness for `tokenBucket_invariant_and_step` at rate 1, capacity 2,
start time 0, calls at times 1 and 2. -/
theorem tokenBucket_invariant_and_step_witness :
    (0 ≤ (1 : ℚ)) ∧ (0 ≤ (2 : ℚ)) ∧
    List.Chain (· ≤ ·) (0 : ℚ) [1, 2] ∧
    (TBInv (newTokenBucket 1 2 0) ∧
     (∀ p ∈ (newTokenBucket 1 2 0).runAllow [1, 2], TBInv p.2) ∧
     (∀ b : TokenBucket, ∀ now : ℚ,
       b.allow now =
         (decide (1 ≤ b.refill now),
          { b with
             tokens := if 1 ≤ b.refill now then b.refill now - 1 else b.refill now,
             lastUpdate := now }))) := by
  have hchain : List.Chain (· ≤ ·) (0 : ℚ) [1, 2] := by
    refine List.Chain.cons (by norm_num) (List.Chain.cons (by norm_num) List.Chain.nil)
  exact ⟨by norm_num, by norm_num, hchain,
    tokenBucket_invariant_and_step 1 2 0 (by norm_num) (by norm_num) [1, 2] hchain⟩

theorem lowCapacityAllowFalse (b : TokenBucket) (now : ℚ)
    (hcap : b.capacity < 1) :
    (b.allow now).1 = false ∧ (b.allow now).2.tokens = b.refill now ∧
    (b.allow now).2.capacity = b.capacity := by
  have hlt : ¬(1 ≤ b.refill now) := by
    have := min_le_right (b.tokens + (now - b.lastUpdate) * b.rate) b.capacity
    unfold TokenBucket.refill
    intro hcontra
    exact absurd (le_trans hcontra this) (not_le.mpr hcap)
  rw [TokenBucket.allow_eq]
  refine ⟨by simp [hlt], by simp [hlt], rfl⟩

theorem lowCapacityRunAllFalse (b : TokenBucket) (hcap : b.capacity < 1)
    (ts : List ℚ) : ∀ p ∈ b.runAllow ts, p.1 = false := by
  induction ts generalizing b with
  | nil => intro p hp; simp [TokenBucket.runAllow] at hp
  | cons t rest ih =>
    intro p hp
    simp only [TokenBucket.runAllow, List.mem_cons] at hp
    have hstep := lowCapacityAllowFalse b t hcap
    rcases hp with rfl | hp
    · exact hstep.1
    · exact ih (b.allow t).2 (hstep.2.2 ▸ hcap) p hp

/-- C10: A token bucket with capacity below 1 rejects every `allow()`
call regardless of elapsed time (the refill is clamped to capacity, which
stays below the 1-token threshold); consequently `NewLimiter` invoked with
a positive global rate and burst 0 builds a global bucket of capacity 0
that rejects all traffic, and a limiter whose per-IP burst is 0 lazily
creates per-IP buckets of capacity 0 that reject all traffic; the
documented 2×-rate burst default lives only in the server's `main`
(`mainEffectiveBurst`), not inside `NewLimiter` itself. -/
theorem newLimiter_zeroBurst_rejects_all (g i ib : Int) (now : ℚ)
    (hg : 0 < g) :
    (∀ b : TokenBucket, ∀ t : ℚ, b.capacity < 1 →
       (b.allow t).1 = false ∧ (b.allow t).2.tokens = b.refill t) ∧
    (NewLimiter g 0 i ib now =
       some { globalBucket := some (newTokenBucket (g : ℚ) 0 now),
              ipRate := i, ipBurst := ib } ∧
     (newTokenBucket (g : ℚ) 0 now).capacity = 0 ∧
     (∀ ts : List ℚ, ∀ p ∈ (newTokenBucket (g : ℚ) 0 now).runAllow ts,
        p.1 = false)) ∧
    (∀ l : Limiter, l.ipBurst = 0 →
       ∀ ts : List ℚ, ∀ p ∈ (l.freshIPBucket now).runAllow ts,
         p.1 = false) ∧
    (mainEffectiveBurst g 0 = g * 2 ∧ g * 2 ≠ 0) := by
  refine ⟨fun b t h => ⟨(lowCapacityAllowFalse b t h).1,
           (lowCapacityAllowFalse b t h).2.1⟩, ⟨?_, ?_, ?_⟩, ?_, ?_, ?_⟩
  · unfold NewLimiter
    rw [if_neg (by intro hcontra; exact absurd hcontra.1 (by omega)),
      if_pos hg]
    norm_num
  · simp [newTokenBucket]
  · intro ts p hp
    exact lowCapacityRunAllFalse _ (by simp [newTokenBucket]) ts p hp
  · intro l hl ts p hp
    refine lowCapacityRunAllFalse _ ?_ ts p hp
    simp [Limiter.freshIPBucket, newTokenBucket, hl]
  · unfold mainEffectiveBurst
    rw [if_pos ⟨rfl, hg⟩]
  · omega

/-- Witness for `newLimiter_zeroBurst_rejects_all` at global rate 5. -/
theorem newLimiter_zeroBurst_rejects_all_witness :
    (0 < (5 : Int)) ∧
    ((NewLimiter 5 0 7 0 0 =
        some { globalBucket := some (newTokenBucket (5 : ℚ) 0 0),
               ipRate := 7, ipBurst := 0 } ∧
      (newTokenBucket ((5 : Int) : ℚ) 0 0).capacity = 0 ∧
      (∀ ts : List ℚ, ∀ p ∈ (newTokenBucket ((5 : Int) : ℚ) 0 0).runAllow ts,
         p.1 = false))) := by
  have h := newLimiter_zeroBurst_rejects_all 5 7 0 0 (by norm_num)
  exact ⟨by norm_num, h.2.1⟩

theorem splitOnChar_ne_nil (c : Char) (s : Str) : splitOnChar c s ≠ [] := by
  cases s with
  | nil => simp [splitOnChar]
  | cons x rest =>
    unfold splitOnChar
    cases splitOnChar c rest with
    | nil => simp
    | cons hd tl =>
      by_cases h : x = c <;> simp [h]

theorem splitOnChar_of_not_mem (c : Char) (s : Str) (h : c ∉ s) :
    splitOnChar c s = [s] := by
  induction s with
  | nil => rfl
  | cons x rest ih =>
    unfold splitOnChar
    rw [ih (fun hc => h (List.mem_cons_of_mem x hc))]
    dsimp only
    rw [if_neg (fun hc => h (by simp [hc]))]

theorem splitOnChar_length_of_mem (c : Char) (s : Str) (h : c ∈ s) :
    2 ≤ (splitOnChar c s).length := by
  induction s with
  | nil => simp at h
  | cons x rest ih =>
    unfold splitOnChar
    rcases List.mem_cons.mp h with rfl | hmem
    · cases hs : splitOnChar c rest with
      | nil => exact absurd hs (splitOnChar_ne_nil c rest)
      | cons hd tl => simp
    · have h2 := ih hmem
      cases hs : splitOnChar c rest with
      | nil => exact absurd hs (splitOnChar_ne_nil c rest)
      | cons hd tl =>
        rw [hs] at h2
        by_cases hx : x = c
        · simp [hx]
        · simp only [List.length_cons] at h2
          simp [hx]
          omega

theorem splitOnChar_append_sep (c : Char) (xs ys : Str) (h : c ∉ ys) :
    (splitOnChar c (xs ++ c :: ys)).getLast? = some ys := by
  induction xs with
  | nil =>
    show (splitOnChar c (c :: ys)).getLast? = some ys
    unfold splitOnChar
    rw [splitOnChar_of_not_mem c ys h]
    simp
  | cons x rest ih =>
    show (splitOnChar c (x :: (rest ++ c :: ys))).getLast? = some ys
    unfold splitOnChar
    cases hs : splitOnChar c (rest ++ c :: ys) with
    | nil => exact absurd hs (splitOnChar_ne_nil c _)
    | cons hd tl =>
      have hlen : 2 ≤ (hd :: tl).length := by
        rw [← hs]
        exact splitOnChar_length_of_mem c _ (by simp)
      cases tl with
      | nil => simp at hlen
      | cons hd2 tl2 =>
        have hlast : (hd :: hd2 :: tl2).getLast? = some ys := by
          rw [← hs]; exact ih
        dsimp only
        by_cases hx : x = c
        · rw [if_pos hx]
          rw [List.getLast?_cons_cons] at hlast ⊢
          exact hlast
        · rw [if_neg hx]
          rw [List.getLast?_cons_cons] at hlast ⊢
          exact hlast

theorem tmpName_basename (p rand : Str) (h : ('/' : Char) ∉ rand) :
    goBase (tmpNameFor p rand) = '.' :: 't' :: 'm' :: 'p' :: '-' :: rand ∧
    hasPre (".tmp-".data) (goBase (tmpNameFor p rand)) = true := by
  have hnm : ('/' : Char) ∉ ('.' :: 't' :: 'm' :: 'p' :: '-' :: rand) := by
    intro hc
    rcases List.mem_cons.mp hc with hc2 | hc
    · exact absurd hc2 (by decide)
    rcases List.mem_cons.mp hc with hc2 | hc
    · exact absurd hc2 (by decide)
    rcases List.mem_cons.mp hc with hc2 | hc
    · exact absurd hc2 (by decide)
    rcases List.mem_cons.mp hc with hc2 | hc
    · exact absurd hc2 (by decide)
    rcases List.mem_cons.mp hc with hc2 | hc
    · exact absurd hc2 (by decide)
    · exact h hc
  have hbase : goBase (tmpNameFor p rand) =
      '.' :: 't' :: 'm' :: 'p' :: '-' :: rand := by
    unfold goBase tmpNameFor
    rw [splitOnChar_append_sep ('/') (goDirName p) _ hnm]
  refine ⟨hbase, ?_⟩
  rw [hbase]
  simp [hasPre]

/-- C3: Every cache write goes through `atomicWriteFile`, which creates a
temporary file named `.tmp-…` inside the destination directory, writes the
full contents, fsyncs, closes, and renames it over the final name; on a
failure at any step the function returns that step's error, the
destination path keeps its previous contents, and the temporary file is
absent afterwards.  The hypothesis `tn ≠ p` holds in the source because
`os.CreateTemp` creates a fresh randomly-named file. -/
theorem atomicWriteFile_spec (failAt : WStep → Bool) (p rand : Str)
    (data : List Nat) (fs : FileSys)
    (hfresh : tmpNameFor p rand ≠ p)
    (hnotmp : fs (tmpNameFor p rand) = none) :
    (('/' : Char) ∉ rand →
       hasPre (".tmp-".data) (goBase (tmpNameFor p rand)) = true ∧
       goBase (tmpNameFor p rand) = '.' :: 't' :: 'm' :: 'p' :: '-' :: rand) ∧
    ((atomicWriteFile failAt p rand data).1 = .ok () →
       (atomicWriteFile failAt p rand data).2 =
         [.created (tmpNameFor p rand), .wrote (tmpNameFor p rand) data,
          .synced (tmpNameFor p rand), .closed (tmpNameFor p rand),
          .renamed (tmpNameFor p rand) p] ∧
       applyEvents fs (atomicWriteFile failAt p rand data).2 p = some data ∧
       applyEvents fs (atomicWriteFile failAt p rand data).2
         (tmpNameFor p rand) = none) ∧
    (∀ step : WStep, (atomicWriteFile failAt p rand data).1 = .error step →
       failAt step = true ∧
       applyEvents fs (atomicWriteFile failAt p rand data).2 p = fs p ∧
       applyEvents fs (atomicWriteFile failAt p rand data).2
         (tmpNameFor p rand) = none) := by
  set tn := tmpNameFor p rand with htn
  have hp_ne : p ≠ tn := fun h => hfresh h.symm
  have hup_p : ∀ (fs2 : FileSys) (v : Option (List Nat)),
      Function.update fs2 tn v p = fs2 p :=
    fun fs2 v => Function.update_noteq hp_ne v fs2
  have hup_tn : ∀ (fs2 : FileSys) (v : Option (List Nat)),
      Function.update fs2 tn v tn = v :=
    fun fs2 v => Function.update_same tn v fs2
  refine ⟨fun hns => ⟨(tmpName_basename p rand hns).2,
    (tmpName_basename p rand hns).1⟩, ?_⟩
  cases hb1 : failAt .createTemp with
  | true =>
    have he : atomicWriteFile failAt p rand data = (.error .createTemp, []) := by
      unfold atomicWriteFile; rw [hb1]; rfl
    rw [he]
    refine ⟨fun hcontra => by simp at hcontra, fun step hstep => ?_⟩
    obtain rfl : WStep.createTemp = step := by simpa using hstep
    exact ⟨hb1, rfl, by simpa [applyEvents] using hnotmp⟩
  | false =>
  cases hb2 : failAt .writeData with
  | true =>
    have he : atomicWriteFile failAt p rand data =
        (.error .writeData, [.created tn, .closed tn, .removed tn]) := by
      unfold atomicWriteFile; rw [hb1, hb2]; rfl
    rw [he]
    refine ⟨fun hcontra => by simp at hcontra, fun step hstep => ?_⟩
    obtain rfl : WStep.writeData = step := by simpa using hstep
    refine ⟨hb2, ?_, ?_⟩
    · simp only [applyEvents, applyEvent, fsSet, fsDel]
      rw [hup_p, hup_p]
    · simp only [applyEvents, applyEvent, fsSet, fsDel]
      rw [hup_tn]
  | false =>
  cases hb3 : failAt .syncData with
  | true =>
    have he : atomicWriteFile failAt p rand data =
        (.error .syncData,
         [.created tn, .wrote tn data, .closed tn, .removed tn]) := by
      unfold atomicWriteFile; rw [hb1, hb2, hb3]; rfl
    rw [he]
    refine ⟨fun hcontra => by simp at hcontra, fun step hstep => ?_⟩
    obtain rfl : WStep.syncData = step := by simpa using hstep
    refine ⟨hb3, ?_, ?_⟩
    · simp only [applyEvents, applyEvent, fsSet, fsDel]
      rw [hup_p, hup_p, hup_p]
    · simp only [applyEvents, applyEvent, fsSet, fsDel]
      rw [hup_tn]
  | false =>
  cases hb4 : failAt .closeFile with
  | true =>
    have he : atomicWriteFile failAt p rand data =
        (.error .closeFile,
         [.created tn, .wrote tn data, .synced tn, .removed tn]) := by
      unfold atomicWriteFile; rw [hb1, hb2, hb3, hb4]; rfl
    rw [he]
    refine ⟨fun hcontra => by simp at hcontra, fun step hstep => ?_⟩
    obtain rfl : WStep.closeFile = step := by simpa using hstep
    refine ⟨hb4, ?_, ?_⟩
    · simp only [applyEvents, applyEvent, fsSet, fsDel]
      rw [hup_p, hup_p, hup_p]
    · simp only [applyEvents, applyEvent, fsSet, fsDel]
      rw [hup_tn]
  | false =>
  cases hb5 : failAt .renameFile with
  | true =>
    have he : atomicWriteFile failAt p rand data =
        (.error .renameFile,
         [.created tn, .wrote tn data, .synced tn, .closed tn,
          .removed tn]) := by
      unfold atomicWriteFile; rw [hb1, hb2, hb3, hb4, hb5]; rfl
    rw [he]
    refine ⟨fun hcontra => by simp at hcontra, fun step hstep => ?_⟩
    obtain rfl : WStep.renameFile = step := by simpa using hstep
    refine ⟨hb5, ?_, ?_⟩
    · simp only [applyEvents, applyEvent, fsSet, fsDel]
      rw [hup_p, hup_p, hup_p]
    · simp only [applyEvents, applyEvent, fsSet, fsDel]
      rw [hup_tn]
  | false =>
    have he : atomicWriteFile failAt p rand data =
        (.ok (),
         [.created tn, .wrote tn data, .synced tn, .closed tn,
          .renamed tn p]) := by
      unfold atomicWriteFile; rw [hb1, hb2, hb3, hb4, hb5]; rfl
    rw [he]
    refine ⟨fun _ => ⟨rfl, ?_, ?_⟩, fun step hstep => by simp at hstep⟩
    · simp only [applyEvents, applyEvent, fsSet, fsDel]
      rw [hup_tn]
      simp only [applyEvents, applyEvent, fsSet, fsDel]
      rw [Function.update_same]
    · simp only [applyEvents, applyEvent, fsSet, fsDel]
      rw [hup_tn]
      simp only [applyEvents, applyEvent, fsSet, fsDel]
      rw [Function.update_noteq hfresh, hup_tn]

/-- Witness for `atomicWriteFile_spec`: writing bytes `[7, 8]` to path
`c/orig/k` with the fsync step failing leaves the destination's old
contents in place and no temp file behind. -/
theorem atomicWriteFile_spec_witness :
    (tmpNameFor ("c/orig/k".data) ("r1".data) ≠ "c/orig/k".data) ∧
    (∀ step : WStep,
       (atomicWriteFile failAtSync ("c/orig/k".data) ("r1".data)
           [7, 8]).1 = .error step →
       failAtSync step = true ∧
       applyEvents fsC3 (atomicWriteFile failAtSync
           ("c/orig/k".data) ("r1".data) [7, 8]).2 ("c/orig/k".data) =
         fsC3 ("c/orig/k".data) ∧
       applyEvents fsC3 (atomicWriteFile failAtSync
           ("c/orig/k".data) ("r1".data) [7, 8]).2
         (tmpNameFor ("c/orig/k".data) ("r1".data)) = none) := by
  refine ⟨by decide, ?_⟩
  exact (atomicWriteFile_spec failAtSync ("c/orig/k".data)
    ("r1".data) [7, 8] fsC3 (by decide) (by decide)).2.2

/-- C4: For both the original-tier and the resized-tier read: a hit is
returned only when the stat succeeds, the entry is fresh
(`now − mtime ≤ TTL`) and the file read succeeds; and whenever the stat
succeeds and the entry is fresh but the read fails (the janitor deleted
the file in between), the read reports a miss `(nil, false)` — the Go
functions have no error channel at all, so no error can be reported. -/
theorem cacheRead_fresh_hit_and_race_miss (o : ReadOracle) (now ttl : Int) :
    ((ReadOrigFromCache o now ttl).2 = true →
       ∃ mtime b, o.statResult = some mtime ∧ now - mtime ≤ ttl ∧
         o.readResult = some b ∧
         ReadOrigFromCache o now ttl = (some b, true)) ∧
    (∀ mtime, o.statResult = some mtime → now - mtime ≤ ttl →
       o.readResult = none → ReadOrigFromCache o now ttl = (none, false)) ∧
    ((ReadResizedFromCacheWithMod o now ttl).2.1 = true →
       ∃ mtime b, o.statResult = some mtime ∧ now - mtime ≤ ttl ∧
         o.readResult = some b ∧
         ReadResizedFromCacheWithMod o now ttl = (some b, true, mtime)) ∧
    (∀ mtime, o.statResult = some mtime → now - mtime ≤ ttl →
       o.readResult = none →
       ReadResizedFromCacheWithMod o now ttl = (none, false, 0)) := by
  obtain ⟨st, rd⟩ := o
  refine ⟨?_, ?_, ?_, ?_⟩
  · intro hhit
    cases st with
    | none => simp [ReadOrigFromCache] at hhit
    | some mtime =>
      by_cases hfresh : now - mtime > ttl
      · simp [ReadOrigFromCache, hfresh] at hhit
      · cases rd with
        | none => simp [ReadOrigFromCache, hfresh] at hhit
        | some b =>
          exact ⟨mtime, b, rfl, not_lt.mp hfresh, rfl,
            by simp [ReadOrigFromCache, hfresh]⟩
  · rintro mtime rfl hfresh rfl
    simp [ReadOrigFromCache, not_lt.mpr hfresh]
  · intro hhit
    cases st with
    | none => simp [ReadResizedFromCacheWithMod] at hhit
    | some mtime =>
      by_cases hfresh : now - mtime > ttl
      · simp [ReadResizedFromCacheWithMod, hfresh] at hhit
      · cases rd with
        | none => simp [ReadResizedFromCacheWithMod, hfresh] at hhit
        | some b =>
          exact ⟨mtime, b, rfl, not_lt.mp hfresh, rfl,
            by simp [ReadResizedFromCacheWithMod, hfresh]⟩
  · rintro mtime rfl hfresh rfl
    simp [ReadResizedFromCacheWithMod, not_lt.mpr hfresh]

/-- Witness for `cacheRead_fresh_hit_and_race_miss`: a fresh entry
(mtime 5 at time 10, TTL 100) whose read step fails is a miss on both
tiers. -/
theorem cacheRead_fresh_hit_and_race_miss_witness :
    (ReadOracle.mk (some 5) none).statResult = some 5 ∧
    (10 : Int) - 5 ≤ 100 ∧
    ReadOrigFromCache (ReadOracle.mk (some 5) none) 10 100 = (none, false) ∧
    ReadResizedFromCacheWithMod (ReadOracle.mk (some 5) none) 10 100 =
      (none, false, 0) := by
  have h := cacheRead_fresh_hit_and_race_miss (ReadOracle.mk (some 5) none) 10 100
  exact ⟨rfl, by norm_num,
    h.2.1 5 rfl (by norm_num) rfl,
    h.2.2.2 5 rfl (by norm_num) rfl⟩

theorem sumSizes_cons (f : CFile) (l : List CFile) :
    sumSizes (f :: l) = f.size + sumSizes l := by
  simp [sumSizes]

theorem evictLoop_append (m : Int) (l : List CFile) (t : Int) :
    (evictLoop m l t).1 ++ (evictLoop m l t).2 = l := by
  induction l generalizing t with
  | nil => rfl
  | cons f rest ih =>
    unfold evictLoop
    by_cases h : t ≤ m
    · simp [h]
    · simp only [h, if_false]
      simpa using ih (t - f.size)

theorem evictLoop_sum (m : Int) (hm : 0 ≤ m) (l : List CFile) (t : Int)
    (ht : sumSizes l = t) : sumSizes (evictLoop m l t).2 ≤ m := by
  induction l generalizing t with
  | nil =>
    simp [evictLoop, sumSizes, hm]
  | cons f rest ih =>
    unfold evictLoop
    by_cases h : t ≤ m
    · rw [if_pos h]
      show sumSizes (f :: rest) ≤ m
      rw [ht]; exact h
    · simp only [h, if_false]
      exact ih (t - f.size) (by rw [sumSizes_cons] at ht; omega)

theorem evictLoop_minimal (m : Int) (l : List CFile) (t : Int) :
    ∀ k, k < (evictLoop m l t).1.length →
      m < t - sumSizes ((evictLoop m l t).1.take k) := by
  induction l generalizing t with
  | nil => intro k hk; simp [evictLoop] at hk
  | cons f rest ih =>
    intro k hk
    unfold evictLoop at hk ⊢
    by_cases h : t ≤ m
    · simp [h] at hk
    · simp only [h, if_false] at hk ⊢
      cases k with
      | zero => simp [sumSizes]; omega
      | succ k2 =>
        simp only [List.length_cons, Nat.succ_lt_succ_iff] at hk
        have := ih (t - f.size) k2 hk
        simp only [List.take_succ_cons, sumSizes_cons]
        omega

theorem pathInj (fs : List CFile) (hnodup : (fs.map (·.path)).Nodup)
    (g h : CFile) (hg : g ∈ fs) (hh : h ∈ fs) (heq : g.path = h.path) :
    g = h :=
  List.inj_on_of_nodup_map hnodup hg hh heq

theorem sizeLimitVictims_eq_nil (fs : List CFile) (m : Int)
    (h : payloadTotal fs ≤ m) : sizeLimitVictims fs m = [] := by
  unfold sizeLimitVictims
  exact if_pos (Or.inl h)

theorem purgeBySizeLimit_eq_self (fs : List CFile) (m : Int)
    (h : payloadTotal fs ≤ m) : purgeBySizeLimit fs m = fs := by
  unfold purgeBySizeLimit
  rw [sizeLimitVictims_eq_nil fs m h]
  apply List.filter_eq_self.mpr
  intro a _
  simp

theorem mem_purgeBySizeLimit (fs : List CFile) (m : Int) (f : CFile) :
    f ∈ purgeBySizeLimit fs m ↔ f ∈ fs ∧
      ¬(f.path ∈ (sizeLimitVictims fs m).map (·.path) ∨
        (hasSuf (".meta".data) f.path = true ∧
         metaBase f.path ∈ (sizeLimitVictims fs m).map (·.path))) := by
  unfold purgeBySizeLimit
  rw [List.mem_filter]
  simp only [decide_eq_true_eq]

theorem payload_not_meta (f : CFile) (h : isPayloadFile f.path = true) :
    hasSuf (".meta".data) f.path = false := by
  unfold isPayloadFile at h
  simp only [Bool.and_eq_true, Bool.not_eq_eq_eq_not, Bool.not_true] at h
  exact h.2

theorem payload_not_temp (f : CFile) (h : isPayloadFile f.path = true) :
    isTempFile f.path = false := by
  unfold isPayloadFile at h
  unfold isTempFile
  simp only [Bool.and_eq_true, Bool.not_eq_eq_eq_not, Bool.not_true] at h
  simp [h.1.2]

theorem payload_not_metaFile (f : CFile) (h : isPayloadFile f.path = true) :
    isMetaFile f.path = false := by
  unfold isMetaFile
  simp [payload_not_meta f h]

/-- Core decomposition of `purgeBySizeLimit` in the evicting case: the
mtime-sorted payload list splits into the victims followed by the
remaining payloads, the remaining total is within the limit, and the
result's payloads are exactly the remaining ones. -/
theorem purgeBySizeLimit_decomp (fs : List CFile) (m : Int)
    (hnodup : (fs.map (·.path)).Nodup) (hm : 0 < m)
    (hbig : ¬ payloadTotal fs ≤ m) :
    sizeLimitVictims fs m ++
        (evictLoop m
          (List.insertionSort mtimeLE (fs.filter (fun f => isPayloadFile f.path)))
          (sumSizes (fs.filter (fun f => isPayloadFile f.path)))).2 =
      List.insertionSort mtimeLE (fs.filter (fun f => isPayloadFile f.path)) ∧
    sumSizes
        (evictLoop m
          (List.insertionSort mtimeLE (fs.filter (fun f => isPayloadFile f.path)))
          (sumSizes (fs.filter (fun f => isPayloadFile f.path)))).2 ≤ m ∧
    List.Perm
      ((purgeBySizeLimit fs m).filter (fun f => isPayloadFile f.path))
      (evictLoop m
        (List.insertionSort mtimeLE (fs.filter (fun f => isPayloadFile f.path)))
        (sumSizes (fs.filter (fun f => isPayloadFile f.path)))).2 ∧
    List.Pairwise mtimeLE
      (List.insertionSort mtimeLE (fs.filter (fun f => isPayloadFile f.path))) := by
  set files := fs.filter (fun f => isPayloadFile f.path) with hfiles
  set total := sumSizes files with htotal
  set sorted := List.insertionSort mtimeLE files with hsorted
  have hcond : ¬(total ≤ m ∨ files.isEmpty = true) := by
    rintro (h | h)
    · exact hbig h
    · rw [List.isEmpty_iff] at h
      refine hbig ?_
      show sumSizes files ≤ m
      rw [h]
      simp only [sumSizes, List.map_nil, List.sum_nil]
      omega
  have hvic : sizeLimitVictims fs m = (evictLoop m sorted total).1 := by
    unfold sizeLimitVictims
    rw [if_neg hcond]
  have hperm : List.Perm sorted files := List.perm_insertionSort mtimeLE files
  have hsum_sorted : sumSizes sorted = total := by
    show (sorted.map (·.size)).sum = total
    rw [(hperm.map (·.size)).sum_eq]
    rfl
  have hdecomp : (evictLoop m sorted total).1 ++ (evictLoop m sorted total).2 =
      sorted := evictLoop_append m sorted total
  have hnod_files : (files.map (·.path)).Nodup :=
    hnodup.sublist ((List.filter_sublist fs).map (fun x => x.path))
  have hnod_sorted : (sorted.map (·.path)).Nodup :=
    ((hperm.map (·.path)).nodup_iff).mpr hnod_files
  have hrem : sumSizes (evictLoop m sorted total).2 ≤ m :=
    evictLoop_sum m (le_of_lt hm) sorted total hsum_sorted
  refine ⟨by rw [hvic]; exact hdecomp, hrem, ?_,
    List.sorted_insertionSort mtimeLE files⟩
  -- the result's payloads are the remaining payloads
  set vp := (sizeLimitVictims fs m).map (·.path) with hvp
  have hstep1 : (purgeBySizeLimit fs m).filter (fun f => isPayloadFile f.path) =
      files.filter (fun f => ¬ f.path ∈ vp) := by
    unfold purgeBySizeLimit
    rw [List.filter_filter, hfiles, List.filter_filter]
    apply List.filter_congr
    intro a _
    cases hpa : isPayloadFile a.path with
    | false => simp
    | true =>
      have hns := payload_not_meta a hpa
      simp [hns, hvp, List.mem_map]
  rw [hstep1]
  have hperm2 : List.Perm (files.filter (fun f => ¬ f.path ∈ vp))
      (sorted.filter (fun f => ¬ f.path ∈ vp)) := (hperm.filter _).symm
  refine hperm2.trans ?_
  rw [show sorted.filter (fun f => ¬ f.path ∈ vp) =
      ((evictLoop m sorted total).1 ++ (evictLoop m sorted total).2).filter
        (fun f => ¬ f.path ∈ vp) from by rw [hdecomp]]
  rw [List.filter_append]
  have hv_nil : (evictLoop m sorted total).1.filter (fun f => ¬ f.path ∈ vp) = [] := by
    apply List.filter_eq_nil_iff.mpr
    intro a ha
    simp only [decide_eq_true_eq, Decidable.not_not, not_not]
    rw [hvp, hvic]
    exact List.mem_map_of_mem _ ha
  have hr_self : (evictLoop m sorted total).2.filter (fun f => ¬ f.path ∈ vp) =
      (evictLoop m sorted total).2 := by
    apply List.filter_eq_self.mpr
    intro a ha
    simp only [decide_eq_true_eq]
    intro hmem
    rw [hvp, hvic] at hmem
    obtain ⟨v, hv, hveq⟩ := List.mem_map.mp hmem
    -- v in the victims prefix and a in the remaining suffix share a path,
    -- contradicting nodup of the sorted paths
    have : ¬ (List.Disjoint ((evictLoop m sorted total).1.map (·.path))
        ((evictLoop m sorted total).2.map (·.path))) := by
      intro hdisj
      exact hdisj (List.mem_map_of_mem _ hv)
        (hveq ▸ List.mem_map_of_mem _ ha)
    apply this
    have := hnod_sorted
    rw [← hdecomp, List.map_append, List.nodup_append] at this
    exact this.2.2
  rw [hv_nil, hr_self, List.nil_append]

theorem purgeBySizeLimit_payloadTotal (fs : List CFile) (m : Int)
    (hnodup : (fs.map (·.path)).Nodup) (hm : 0 < m) :
    payloadTotal (purgeBySizeLimit fs m) ≤ m := by
  by_cases hc : payloadTotal fs ≤ m
  · rw [purgeBySizeLimit_eq_self fs m hc]
    exact hc
  · obtain ⟨_, hrem, hperm, _⟩ := purgeBySizeLimit_decomp fs m hnodup hm hc
    show sumSizes ((purgeBySizeLimit fs m).filter (fun f => isPayloadFile f.path)) ≤ m
    have hsum : sumSizes ((purgeBySizeLimit fs m).filter (fun f => isPayloadFile f.path)) =
        sumSizes (evictLoop m
          (List.insertionSort mtimeLE (fs.filter (fun f => isPayloadFile f.path)))
          (sumSizes (fs.filter (fun f => isPayloadFile f.path)))).2 := by
      simp only [sumSizes]
      exact (hperm.map (fun x => x.size)).sum_eq
    rw [hsum]
    exact hrem

theorem metaFile_hasSuf (p : Str) (h : isMetaFile p = true) :
    hasSuf (".meta".data) p = true := by
  unfold isMetaFile at h
  simp only [Bool.and_eq_true] at h
  exact h.2

theorem mem_phase1 (fs : List CFile) (eb : Int) (f : CFile) :
    f ∈ phase1Expiry fs eb ↔ f ∈ fs ∧
      ¬(f.path ∈ expiredPayloadPaths fs eb ∨
        (isMetaFile f.path = true ∧
         metaBase f.path ∈ expiredPayloadPaths fs eb)) := by
  unfold phase1Expiry
  rw [List.mem_filter]
  simp only [decide_eq_true_eq]

theorem mem_phase2 (wp : List Str) (fs : List CFile) (f : CFile) :
    f ∈ phase2Orphans wp fs ↔ f ∈ fs ∧
      ¬(isMetaFile f.path = true ∧ metaBase f.path ∉ wp) := by
  unfold phase2Orphans
  rw [List.mem_filter]
  simp only [decide_eq_true_eq]

theorem mem_phase3 (fs : List CFile) (now : Int) (f : CFile) :
    f ∈ phase3Temps fs now ↔ f ∈ fs ∧
      ¬(isTempFile f.path = true ∧ f.mtime < now - fiveMinutes) := by
  unfold phase3Temps
  rw [List.mem_filter]
  simp only [decide_eq_true_eq]

theorem mem_expiredPaths (fs : List CFile) (eb : Int) (q : Str) :
    q ∈ expiredPayloadPaths fs eb ↔
      ∃ g, g ∈ fs ∧ isPayloadFile g.path = true ∧ g.mtime < eb ∧
        g.path = q := by
  unfold expiredPayloadPaths
  constructor
  · intro hq
    obtain ⟨g, hg, rfl⟩ := List.mem_map.mp hq
    obtain ⟨hg2, hexp⟩ := List.mem_filter.mp hg
    obtain ⟨hg3, hpay⟩ := List.mem_filter.mp hg2
    exact ⟨g, hg3, hpay, by simpa using hexp, rfl⟩
  · rintro ⟨g, hg, hpay, hexp, rfl⟩
    exact List.mem_map_of_mem _ (List.mem_filter.mpr
      ⟨List.mem_filter.mpr ⟨hg, hpay⟩, by simpa using hexp⟩)

/-- C2: After a janitor pass `purgeOnce(root, ttl, maxSize)` over a
quiescent cache root with distinct file paths: (a) no payload file under
an `orig`, `resized` or `fallback` directory with mtime older than
`now − TTL` remains, (b) every remaining `.meta` sidecar still has its
paired payload present, (c) no cache temp file older than 5 minutes
remains, and (d) when `maxSize > 0` the total byte size of the remaining
payload files is at most `maxSize`. -/
theorem purgeOnce_postconditions (fs : List CFile) (now ttl maxSize : Int)
    (hnodup : (fs.map (·.path)).Nodup) :
    (∀ f ∈ purgeOnce fs now ttl maxSize, isPayloadFile f.path = true →
       ¬ f.mtime < now - ttl) ∧
    (∀ f ∈ purgeOnce fs now ttl maxSize, isMetaFile f.path = true →
       ∃ g ∈ purgeOnce fs now ttl maxSize, isPayloadFile g.path = true ∧
         g.path = metaBase f.path) ∧
    (∀ f ∈ purgeOnce fs now ttl maxSize, isTempFile f.path = true →
       ¬ f.mtime < now - fiveMinutes) ∧
    (0 < maxSize → payloadTotal (purgeOnce fs now ttl maxSize) ≤ maxSize) := by
  set dataPaths := (fs.filter (fun f => isPayloadFile f.path)).map (·.path)
    with hdp
  set A1 := phase1Expiry fs (now - ttl) with hA1
  set A2 := phase2Orphans dataPaths A1 with hA2
  set A3 := phase3Temps A2 now with hA3
  have hres : purgeOnce fs now ttl maxSize =
      if 0 < maxSize then purgeBySizeLimit A3 maxSize else A3 := rfl
  have hmemA3 : ∀ f ∈ purgeOnce fs now ttl maxSize, f ∈ A3 := by
    intro f hf
    rw [hres] at hf
    by_cases hpos : 0 < maxSize
    · rw [if_pos hpos] at hf
      exact ((mem_purgeBySizeLimit A3 maxSize f).mp hf).1
    · rwa [if_neg hpos] at hf
  have hchain : ∀ f ∈ A3, f ∈ fs ∧
      ¬(f.path ∈ expiredPayloadPaths fs (now - ttl) ∨
        (isMetaFile f.path = true ∧
         metaBase f.path ∈ expiredPayloadPaths fs (now - ttl))) ∧
      ¬(isMetaFile f.path = true ∧ metaBase f.path ∉ dataPaths) ∧
      ¬(isTempFile f.path = true ∧ f.mtime < now - fiveMinutes) := by
    intro f hf
    obtain ⟨hf2, hp3⟩ := (mem_phase3 A2 now f).mp hf
    obtain ⟨hf1, hp2⟩ := (mem_phase2 dataPaths A1 f).mp hf2
    obtain ⟨hffs, hp1⟩ := (mem_phase1 fs (now - ttl) f).mp hf1
    exact ⟨hffs, hp1, hp2, hp3⟩
  have hA3sub : A3.Sublist fs := by
    rw [hA3, hA2, hA1]
    exact (List.filter_sublist _).trans
      ((List.filter_sublist _).trans (List.filter_sublist _))
  refine ⟨?_, ?_, ?_, ?_⟩
  · intro f hf hpay hexp
    obtain ⟨hffs, hp1, _, _⟩ := hchain f (hmemA3 f hf)
    exact hp1 (Or.inl ((mem_expiredPaths fs (now - ttl) f.path).mpr
      ⟨f, hffs, hpay, hexp, rfl⟩))
  · intro f hf hmeta
    obtain ⟨hffs, hp1, hp2, _⟩ := hchain f (hmemA3 f hf)
    have hbase : metaBase f.path ∈ dataPaths := by
      by_contra hcontra
      exact hp2 ⟨hmeta, hcontra⟩
    obtain ⟨g, hgfilter, hgpath⟩ := List.mem_map.mp hbase
    obtain ⟨hgfs, hgpay⟩ := List.mem_filter.mp hgfilter
    have hgnotexp : g.path ∉ expiredPayloadPaths fs (now - ttl) := by
      intro hexp
      exact hp1 (Or.inr ⟨hmeta, hgpath ▸ hexp⟩)
    have hgA1 : g ∈ A1 := by
      rw [hA1, mem_phase1]
      refine ⟨hgfs, ?_⟩
      rintro (h | h)
      · exact hgnotexp h
      · rw [payload_not_metaFile g hgpay] at h
        simp at h
    have hgA2 : g ∈ A2 := by
      rw [hA2, mem_phase2]
      refine ⟨hgA1, ?_⟩
      rintro ⟨h, _⟩
      rw [payload_not_metaFile g hgpay] at h
      simp at h
    have hgA3 : g ∈ A3 := by
      rw [hA3, mem_phase3]
      refine ⟨hgA2, ?_⟩
      rintro ⟨h, _⟩
      rw [payload_not_temp g hgpay] at h
      simp at h
    rw [hres]
    by_cases hpos : 0 < maxSize
    · rw [if_pos hpos]
      rw [hres, if_pos hpos] at hf
      obtain ⟨_, hfpred⟩ := (mem_purgeBySizeLimit A3 maxSize f).mp hf
      have hgnotvp : g.path ∉ (sizeLimitVictims A3 maxSize).map (·.path) := by
        intro hgvp
        exact hfpred (Or.inr ⟨metaFile_hasSuf f.path hmeta, hgpath ▸ hgvp⟩)
      refine ⟨g, ?_, hgpay, hgpath⟩
      rw [mem_purgeBySizeLimit]
      refine ⟨hgA3, ?_⟩
      rintro (h | ⟨h, _⟩)
      · exact hgnotvp h
      · rw [payload_not_meta g hgpay] at h
        simp at h
    · rw [if_neg hpos]
      exact ⟨g, hgA3, hgpay, hgpath⟩
  · intro f hf htmp hold
    obtain ⟨_, _, _, hp3⟩ := hchain f (hmemA3 f hf)
    exact hp3 ⟨htmp, hold⟩
  · intro hpos
    rw [hres, if_pos hpos]
    exact purgeBySizeLimit_payloadTotal A3 maxSize
      (hnodup.sublist (hA3sub.map (fun x => x.path))) hpos

theorem sizeLimitVictims_eq_evict (fs : List CFile) (m : Int) (hm : 0 < m)
    (hbig : ¬ payloadTotal fs ≤ m) :
    sizeLimitVictims fs m =
      (evictLoop m
        (List.insertionSort mtimeLE (fs.filter (fun f => isPayloadFile f.path)))
        (sumSizes (fs.filter (fun f => isPayloadFile f.path)))).1 := by
  unfold sizeLimitVictims
  rw [if_neg ?_]
  rintro (h | h)
  · exact hbig h
  · rw [List.isEmpty_iff] at h
    refine hbig ?_
    show sumSizes (fs.filter (fun f => isPayloadFile f.path)) ≤ m
    rw [h]
    show (0 : Int) ≤ m
    omega

/-- C5: In the janitor's size-limit eviction over a quiescent root with
distinct paths and a positive limit: the byte total compared against the
limit counts only payload files, so when the payload total is already
within the limit nothing at all is removed — however large the `.meta`
sidecars and `.tmp-` files are; every victim is a payload file; victims
are removed in ascending-mtime order, each older than every payload left
behind; the loop stops as soon as the accounted total drops to the limit
(before each removal the running total still exceeded it, and afterwards
the payload total is within it); and each removed payload's paired
`.meta` sidecar is removed along with it. -/
theorem purgeBySizeLimit_lru_spec (fs : List CFile) (m : Int)
    (hnodup : (fs.map (·.path)).Nodup) (hm : 0 < m) :
    (payloadTotal fs ≤ m → purgeBySizeLimit fs m = fs) ∧
    (∀ v ∈ sizeLimitVictims fs m, v ∈ fs ∧ isPayloadFile v.path = true) ∧
    List.Pairwise mtimeLE (sizeLimitVictims fs m) ∧
    (∀ v ∈ sizeLimitVictims fs m, ∀ g ∈ purgeBySizeLimit fs m,
       isPayloadFile g.path = true → v.mtime ≤ g.mtime) ∧
    (∀ k : Nat, k < (sizeLimitVictims fs m).length →
       m < payloadTotal fs - sumSizes ((sizeLimitVictims fs m).take k)) ∧
    payloadTotal (purgeBySizeLimit fs m) ≤ m ∧
    (∀ f ∈ fs, hasSuf (".meta".data) f.path = true →
       metaBase f.path ∈ (sizeLimitVictims fs m).map (·.path) →
       f ∉ purgeBySizeLimit fs m) := by
  refine ⟨purgeBySizeLimit_eq_self fs m, ?_, ?_, ?_, ?_,
    purgeBySizeLimit_payloadTotal fs m hnodup hm, ?_⟩
  · -- victims are payloads from the root
    intro v hv
    by_cases hc : payloadTotal fs ≤ m
    · rw [sizeLimitVictims_eq_nil fs m hc] at hv
      simp at hv
    · obtain ⟨happ, _, _, _⟩ := purgeBySizeLimit_decomp fs m hnodup hm hc
      have hsorted : v ∈ List.insertionSort mtimeLE
          (fs.filter (fun f => isPayloadFile f.path)) := by
        rw [← happ]
        exact List.mem_append_left _ hv
      have hfiles : v ∈ fs.filter (fun f => isPayloadFile f.path) :=
        (List.perm_insertionSort mtimeLE _).mem_iff.mp hsorted
      exact List.mem_filter.mp hfiles
  · -- victims ascend by mtime
    by_cases hc : payloadTotal fs ≤ m
    · rw [sizeLimitVictims_eq_nil fs m hc]
      exact List.Pairwise.nil
    · obtain ⟨happ, _, _, hsort⟩ := purgeBySizeLimit_decomp fs m hnodup hm hc
      have hsub : (sizeLimitVictims fs m).Sublist
          (List.insertionSort mtimeLE
            (fs.filter (fun f => isPayloadFile f.path))) := by
        rw [← happ]
        exact List.sublist_append_left _ _
      exact hsort.sublist hsub
  · -- every victim is no newer than any kept payload
    intro v hv g hg hgpay
    by_cases hc : payloadTotal fs ≤ m
    · rw [sizeLimitVictims_eq_nil fs m hc] at hv
      simp at hv
    · obtain ⟨happ, _, _, hsort⟩ := purgeBySizeLimit_decomp fs m hnodup hm hc
      obtain ⟨hgfs, hgpred⟩ := (mem_purgeBySizeLimit fs m g).mp hg
      have hgnotvp : g.path ∉ (sizeLimitVictims fs m).map (·.path) :=
        fun hcontra => hgpred (Or.inl hcontra)
      have hgsorted : g ∈ List.insertionSort mtimeLE
          (fs.filter (fun f => isPayloadFile f.path)) :=
        (List.perm_insertionSort mtimeLE _).mem_iff.mpr
          (List.mem_filter.mpr ⟨hgfs, hgpay⟩)
      rw [← happ] at hgsorted
      rcases List.mem_append.mp hgsorted with hgv | hgr
      · exact absurd (List.mem_map_of_mem _ hgv) hgnotvp
      · have hpairs := (List.pairwise_append.mp (happ ▸ hsort)).2.2
        exact hpairs v hv g hgr
  · -- before each removal the running total still exceeded the limit
    intro k hk
    by_cases hc : payloadTotal fs ≤ m
    · rw [sizeLimitVictims_eq_nil fs m hc] at hk
      simp at hk
    · rw [sizeLimitVictims_eq_evict fs m hm hc] at hk ⊢
      exact evictLoop_minimal m _ _ k hk
  · -- a victim's paired sidecar never survives
    intro f hffs hsuf hbase hmem
    obtain ⟨_, hpred⟩ := (mem_purgeBySizeLimit fs m f).mp hmem
    exact hpred (Or.inr ⟨hsuf, hbase⟩)

/-- Witness for `purgeOnce_postconditions` at now = 1000, TTL = 500,
maxSize = 55 over the concrete root. -/
theorem purgeOnce_postconditions_witness :
    (exJanitorFs.map (·.path)).Nodup ∧
    ((∀ f ∈ purgeOnce exJanitorFs 1000 500 55, isPayloadFile f.path = true →
        ¬ f.mtime < 1000 - 500) ∧
     (∀ f ∈ purgeOnce exJanitorFs 1000 500 55, isMetaFile f.path = true →
        ∃ g ∈ purgeOnce exJanitorFs 1000 500 55,
          isPayloadFile g.path = true ∧ g.path = metaBase f.path) ∧
     (∀ f ∈ purgeOnce exJanitorFs 1000 500 55, isTempFile f.path = true →
        ¬ f.mtime < 1000 - fiveMinutes) ∧
     ((0 : Int) < 55 →
        payloadTotal (purgeOnce exJanitorFs 1000 500 55) ≤ 55)) :=
  ⟨by decide, purgeOnce_postconditions exJanitorFs 1000 500 55 (by decide)⟩

/-- Witness for `purgeBySizeLimit_lru_spec` on the two fresh payloads of
the concrete root with limit 55. -/
theorem purgeBySizeLimit_lru_spec_witness :
    (([⟨"/c/orig/a".data, 600, 10⟩,
       ⟨"/c/resized/d".data, 800, 50⟩] : List CFile).map (·.path)).Nodup ∧
    (0 : Int) < 55 ∧
    payloadTotal (purgeBySizeLimit
        [⟨"/c/orig/a".data, 600, 10⟩, ⟨"/c/resized/d".data, 800, 50⟩]
        55) ≤ 55 :=
  ⟨by decide, by decide,
   (purgeBySizeLimit_lru_spec
     [⟨"/c/orig/a".data, 600, 10⟩, ⟨"/c/resized/d".data, 800, 50⟩]
     55 (by decide) (by decide)).2.2.2.2.2.1⟩

theorem nearlyBlankLoop_iff (img : GoImage) (pts : List (Int × Int)) :
    ∀ count : Nat, count ≤ 3 →
      (nearlyBlankLoop img pts count = true ↔
        count + pts.countP (nbQualifies img) ≤ 3) := by
  induction pts with
  | nil =>
    intro count hc
    simp [nearlyBlankLoop, hc]
  | cons p rest ih =>
    intro count hc
    unfold nearlyBlankLoop
    by_cases hq : nbQualifies img p = true
    · rw [if_pos hq, List.countP_cons_of_pos _ _ hq]
      by_cases hcnt : 3 < count + 1
      · rw [if_pos hcnt]
        constructor
        · intro hcontra; simp at hcontra
        · intro hcontra; omega
      · rw [if_neg hcnt, ih (count + 1) (by omega)]
        omega
    · rw [if_neg hq, List.countP_cons_of_neg _ _ hq, ih count hc]

/-- Counterexample for C8: `IsNearlyBlank` is not always at least as
strict as `IsNearlyBlankOrBlack` — on `exRedWhiteImage` the former
returns true while the latter returns false. -/
theorem nearlyBlank_not_subsumed :
    IsNearlyBlank (some exRedWhiteImage) = true ∧
    IsNearlyBlankOrBlack (some exRedWhiteImage) = false := by
  constructor <;> decide

/-- C8 (amended): if `IsNearlyBlank img = true` then
`IsNearlyBlankOrBlack img = true`, except when the sample grid has at
least five half-opaque samples of which exactly three are colored
(half-opaque, neither near-black nor near-white at the 240 threshold) —
in that exceptional shape the blank-or-black filter accepts an image the
nearly-blank filter rejects. -/
theorem nearlyBlank_subsumption_amended (img : Option GoImage)
    (h : IsNearlyBlank img = true) :
    IsNearlyBlankOrBlack img = true ∨
      ∃ g, img = some g ∧ 5 ≤ opaqueCount g ∧ coloredCount g = 3 := by
  match img with
  | none => exact Or.inl rfl
  | some g =>
    have hob : IsNearlyBlankOrBlack (some g) =
        (if g.dx ≤ 0 ∨ g.dy ≤ 0 then true
         else opaqueCount g < 5 || coloredCount g < 3) := rfl
    have hnbdef : IsNearlyBlank (some g) =
        (if g.dx ≤ 0 ∨ g.dy ≤ 0 then true
         else nearlyBlankLoop g (samplePoints g) 0) := rfl
    by_cases hdeg : g.dx ≤ 0 ∨ g.dy ≤ 0
    · left
      rw [hob, if_pos hdeg]
    · by_cases hbb : IsNearlyBlankOrBlack (some g) = true
      · exact Or.inl hbb
      · right
        rw [hob, if_neg hdeg] at hbb
        have hbb2 : 5 ≤ opaqueCount g ∧ 3 ≤ coloredCount g := by
          rcases Bool.or_eq_false_iff.mp (Bool.not_eq_true _ |>.mp hbb) with ⟨h1, h2⟩
          exact ⟨by simpa using of_decide_eq_false h1,
            by simpa using of_decide_eq_false h2⟩
        rw [hnbdef, if_neg hdeg] at h
        have hnb : (samplePoints g).countP (nbQualifies g) ≤ 3 := by
          have := (nearlyBlankLoop_iff g (samplePoints g) 0 (by omega)).mp h
          omega
        have hmono : coloredCount g ≤
            (samplePoints g).countP (nbQualifies g) := by
          apply List.countP_mono_left
          intro p _ hcol
          unfold coloredAt at hcol
          simp only [Bool.and_eq_true, Bool.not_eq_eq_eq_not, Bool.not_true] at hcol
          obtain ⟨⟨hop, _⟩, hw240⟩ := hcol
          unfold nbQualifies
          simp only [Bool.and_eq_true, Bool.not_eq_eq_eq_not, Bool.not_true]
          refine ⟨hop, ?_⟩
          unfold isWhite240At at hw240
          rcases Bool.and_eq_false_iff.mp hw240 with h1 | h2
          · rcases Bool.and_eq_false_iff.mp h1 with ha | hb
            · simp only [decide_eq_false_iff_not, not_lt] at ha
              have hnot : ¬(250 < (g.px p.1 p.2).1 / 256) := by omega
              simp [hnot]
            · simp only [decide_eq_false_iff_not, not_lt] at hb
              have hnot : ¬(250 < (g.px p.1 p.2).2.1 / 256) := by omega
              simp [hnot]
          · simp only [decide_eq_false_iff_not, not_lt] at h2
            have hnot : ¬(250 < (g.px p.1 p.2).2.2.1 / 256) := by omega
            simp [hnot]
        exact ⟨g, rfl, hbb2.1, by omega⟩

/-- Witness for `nearlyBlank_subsumption_amended` at the counterexample
image (where the exceptional right disjunct is the one that holds). -/
theorem nearlyBlank_subsumption_amended_witness :
    IsNearlyBlank (some exRedWhiteImage) = true ∧
    (IsNearlyBlankOrBlack (some exRedWhiteImage) = true ∨
      ∃ g, some exRedWhiteImage = some g ∧
        5 ≤ opaqueCount g ∧ coloredCount g = 3) :=
  ⟨by decide, nearlyBlank_subsumption_amended (some exRedWhiteImage) (by decide)⟩

/-- C9: For every decoded input image and every positive requested size
`n`, `ResizeImage` produces a square output of exactly n×n pixels; and
whenever the input is not already n×n, the output is the Catmull-Rom
resampling of the source drawn over the fully transparent n×n
destination (when it is already n×n, the input is passed through,
which is an n×n square as well). -/
theorem resizeImage_square (bounds : GoRect) (size : Int) (hs : 0 < size) :
    (ResizeImage bounds size).outBounds.dx = size ∧
    (ResizeImage bounds size).outBounds.dy = size ∧
    (¬(bounds.dx = size ∧ bounds.dy = size) →
       ResizeImage bounds size =
         .catmullRomOnTransparent (goRect 0 0 size size) bounds) := by
  unfold ResizeImage
  by_cases h : bounds.dx = size ∧ bounds.dy = size
  · rw [if_pos h]
    exact ⟨h.1, h.2, fun hcontra => absurd h hcontra⟩
  · rw [if_neg h]
    refine ⟨?_, ?_, fun _ => rfl⟩
    · show max 0 size - min 0 size = size
      rw [max_eq_right (le_of_lt hs), min_eq_left (le_of_lt hs)]
      omega
    · show max 0 size - min 0 size = size
      rw [max_eq_right (le_of_lt hs), min_eq_left (le_of_lt hs)]
      omega

/-- Witness for `resizeImage_square`: a 64×64 source resized to 32. -/
theorem resizeImage_square_witness :
    (0 : Int) < 32 ∧
    ((ResizeImage (goRect 0 0 64 64) 32).outBounds.dx = 32 ∧
     (ResizeImage (goRect 0 0 64 64) 32).outBounds.dy = 32 ∧
     (¬((goRect 0 0 64 64).dx = 32 ∧ (goRect 0 0 64 64).dy = 32) →
        ResizeImage (goRect 0 0 64 64) 32 =
          .catmullRomOnTransparent (goRect 0 0 32 32) (goRect 0 0 64 64))) :=
  ⟨by norm_num, resizeImage_square (goRect 0 0 64 64) 32 (by norm_num)⟩

/-- Counterexample for C7, in two parts.  (1) With
`X-Forwarded-For: "bad, 1.2.3.4"` the code validates only the first
comma-element, so the "first valid IP" `1.2.3.4` of the claim is never
returned — the code falls through to the remote address.  (2) With no
headers and `RemoteAddr = "foo:80"`, the returned string `"foo"` neither
parses as a valid IP nor equals the raw remote address. -/
theorem getClientIP_counterexample :
    getClientIP ⟨"bad, 1.2.3.4".data, [], "9.9.9.9:80".data⟩ =
      "9.9.9.9".data ∧
    specFirstValidXffIP ("bad, 1.2.3.4".data) = some ("1.2.3.4".data) ∧
    getClientIP ⟨[], [], "foo:80".data⟩ = "foo".data ∧
    goParseIPValid ("foo".data) = false ∧
    "foo".data ≠ "foo:80".data := by
  refine ⟨?_, ?_, ?_, ?_, ?_⟩ <;> decide

theorem parseIP_valid_of_ne_nil (s : Str) (h : parseIP s ≠ []) :
    goParseIPValid (parseIP s) = true := by
  unfold parseIP at h ⊢
  by_cases hv : goParseIPValid (trimSpace (s.takeWhile (fun c => ¬(c = ',')))) = true
  · rw [if_pos hv]
    exact hv
  · rw [if_neg hv] at h
    exact absurd rfl h

/-- C7 (amended): `getClientIP` returns, in priority order: the first
comma-separated element of `X-Forwarded-For` when, after ASCII-whitespace
trimming, it is a syntactically valid IP (later elements are never
examined); else the validated `X-Real-IP`; else the host part of the
remote address when `SplitHostPort` succeeds, and the raw remote address
otherwise.  Every header-derived result is a valid IPv4 or IPv6 address;
the remote-address fallback is returned without validation. -/
theorem getClientIP_order_amended (r : HTTPRequest) :
    (parseIP r.xForwardedFor ≠ [] →
       getClientIP r = parseIP r.xForwardedFor ∧
       goParseIPValid (getClientIP r) = true) ∧
    (parseIP r.xForwardedFor = [] → parseIP r.xRealIP ≠ [] →
       getClientIP r = parseIP r.xRealIP ∧
       goParseIPValid (getClientIP r) = true) ∧
    (parseIP r.xForwardedFor = [] → parseIP r.xRealIP = [] →
       getClientIP r =
         (match SplitHostPort r.remoteAddr with
          | none => r.remoteAddr
          | some hp => hp.1)) := by
  have hempty : parseIP [] = [] := rfl
  refine ⟨?_, ?_, ?_⟩
  · intro hxff
    have hxne : r.xForwardedFor ≠ [] := by
      intro hcontra
      rw [hcontra, hempty] at hxff
      exact hxff rfl
    have hgc : getClientIP r = parseIP r.xForwardedFor := by
      unfold getClientIP
      rw [if_pos ⟨hxne, hxff⟩]
    exact ⟨hgc, hgc ▸ parseIP_valid_of_ne_nil r.xForwardedFor hxff⟩
  · intro hxff hxri
    have hxne : r.xRealIP ≠ [] := by
      intro hcontra
      rw [hcontra, hempty] at hxri
      exact hxri rfl
    have hgc : getClientIP r = parseIP r.xRealIP := by
      unfold getClientIP
      rw [if_neg (fun hc => hc.2 hxff), if_pos ⟨hxne, hxri⟩]
    exact ⟨hgc, hgc ▸ parseIP_valid_of_ne_nil r.xRealIP hxri⟩
  · intro hxff hxri
    unfold getClientIP
    rw [if_neg (fun hc => hc.2 hxff), if_neg (fun hc => hc.2 hxri)]

/-- Witness for `getClientIP_order_amended` on a request whose
X-Forwarded-For holds a single valid address. -/
theorem getClientIP_order_amended_witness :
    parseIP ("1.2.3.4".data) ≠ [] ∧
    (getClientIP ⟨"1.2.3.4".data, [], "foo:80".data⟩ =
       parseIP ("1.2.3.4".data) ∧
     goParseIPValid
       (getClientIP ⟨"1.2.3.4".data, [], "foo:80".data⟩) = true) :=
  ⟨by decide,
   (getClientIP_order_amended ⟨"1.2.3.4".data, [], "foo:80".data⟩).1
     (by decide)⟩

theorem SFInv_init (n : Nat) : SFInv (SFState.init n) := by
  refine ⟨?_, ?_, ?_, ?_, ?_, ?_, ?_, ?_, ?_⟩ <;>
    simp [SFState.init, refOf, ownerOf]

theorem ownerOf_update_pres {n : Nat} (pcs : Fin n → SFPc) (t : Fin n)
    (pcNew : SFPc) (h : ownerOf pcNew = ownerOf (pcs t)) (u : Fin n) :
    ownerOf (Function.update pcs t pcNew u) = ownerOf (pcs u) := by
  by_cases hu : u = t
  · subst hu
    rw [Function.update_same, h]
  · rw [Function.update_noteq hu]

theorem refOf_of_ownerOf (pc : SFPc) (c : Nat) (h : ownerOf pc = some c) :
    refOf pc = some c := by
  cases pc <;> simp [ownerOf, refOf] at h ⊢ <;> exact h

theorem SFInv_step {n : Nat} (s s2 : SFState n) (hstep : SFStep s s2)
    (hinv : SFInv s) : SFInv s2 := by
  obtain ⟨href, hcur, hfresh, huniq, hrun, howned, hdone, hexec, hfin⟩ := hinv
  cases hstep with
  | enterJoin t c s hpc hcurrent =>
    have hown_pres := ownerOf_update_pres s.pcs t (.waiting c)
      (by rw [hpc]; rfl)
    refine ⟨?_, hcur, hfresh, ?_, ?_, ?_, hdone, hexec, ?_⟩
    all_goals dsimp only
    · intro u c2 hu
      by_cases huc : u = t
      · subst huc
        rw [Function.update_same] at hu
        obtain rfl : c = c2 := by simpa [refOf] using hu
        exact hcur c hcurrent
      · rw [Function.update_noteq huc] at hu
        exact href u c2 hu
    · intro t1 t2 c2 h1 h2
      rw [show ownerOf (Function.update s.pcs t (SFPc.waiting c) t1) =
        ownerOf (s.pcs t1) from hown_pres t1] at h1
      rw [show ownerOf (Function.update s.pcs t (SFPc.waiting c) t2) =
        ownerOf (s.pcs t2) from hown_pres t2] at h2
      exact huniq t1 t2 c2 h1 h2
    · intro u c2 hu
      by_cases huc : u = t
      · subst huc
        rw [Function.update_same] at hu
        exact absurd hu (by simp)
      · rw [Function.update_noteq huc] at hu
        exact hrun u c2 hu
    · intro u c2 r2 hu
      by_cases huc : u = t
      · subst huc
        rw [Function.update_same] at hu
        rcases hu with h | h | h <;> simp at h
      · rw [Function.update_noteq huc] at hu
        exact howned u c2 r2 hu
    · intro u c2 r2 hu
      by_cases huc : u = t
      · subst huc
        rw [Function.update_same] at hu
        exact absurd hu (by simp)
      · rw [Function.update_noteq huc] at hu
        exact hfin u c2 r2 hu
  | enterOwn t s hpc hcurrent =>
    refine ⟨?_, ?_, ?_, ?_, ?_, ?_, hdone, hexec, ?_⟩
    all_goals dsimp only
    · intro u c2 hu
      by_cases huc : u = t
      · subst huc
        rw [Function.update_same] at hu
        obtain rfl : s.nextId = c2 := by simpa [refOf] using hu
        omega
      · rw [Function.update_noteq huc] at hu
        have := href u c2 hu
        omega
    · intro c2 hc2
      obtain rfl : s.nextId = c2 := by simpa using hc2
      omega
    · intro c2 hc2
      exact hfresh c2 (by omega)
    · intro t1 t2 c2 h1 h2
      by_cases h1t : t1 = t <;> by_cases h2t : t2 = t
      · rw [h1t, h2t]
      · subst h1t
        rw [Function.update_same] at h1
        rw [Function.update_noteq h2t] at h2
        have hlt : c2 < s.nextId := href t2 c2 (refOf_of_ownerOf _ c2 h2)
        have heq : s.nextId = c2 := by simpa [ownerOf] using h1
        omega
      · subst h2t
        rw [Function.update_same] at h2
        rw [Function.update_noteq h1t] at h1
        have hlt : c2 < s.nextId := href t1 c2 (refOf_of_ownerOf _ c2 h1)
        have heq : s.nextId = c2 := by simpa [ownerOf] using h2
        omega
      · rw [Function.update_noteq h1t] at h1
        rw [Function.update_noteq h2t] at h2
        exact huniq t1 t2 c2 h1 h2
    · intro u c2 hu
      by_cases huc : u = t
      · subst huc
        rw [Function.update_same] at hu
        obtain rfl : s.nextId = c2 := by simpa using hu
        exact hfresh s.nextId (le_refl _)
      · rw [Function.update_noteq huc] at hu
        exact hrun u c2 hu
    · intro u c2 r2 hu
      by_cases huc : u = t
      · subst huc
        rw [Function.update_same] at hu
        rcases hu with h | h | h <;> simp at h
      · rw [Function.update_noteq huc] at hu
        exact howned u c2 r2 hu
    · intro u c2 r2 hu
      by_cases huc : u = t
      · subst huc
        rw [Function.update_same] at hu
        exact absurd hu (by simp)
      · rw [Function.update_noteq huc] at hu
        exact hfin u c2 r2 hu
  | fnReturns t c r s hpc =>
    have hfreshc := hrun t c hpc
    have hclt : c < s.nextId := href t c (by rw [hpc]; rfl)
    have hown_pres := ownerOf_update_pres s.pcs t (.assigned c r)
      (by rw [hpc]; rfl)
    have hcalls_other : ∀ c2, c2 ≠ c →
        Function.update s.calls c
          ⟨some r, (s.calls c).done, (s.calls c).execs + 1⟩ c2 = s.calls c2 :=
      fun c2 hc2 => Function.update_noteq hc2 _ _
    have hcalls_c : Function.update s.calls c
        ⟨some r, (s.calls c).done, (s.calls c).execs + 1⟩ c =
        ⟨some r, false, 1⟩ := by
      rw [Function.update_same, hfreshc]
    refine ⟨?_, hcur, ?_, ?_, ?_, ?_, ?_, ?_, ?_⟩
    all_goals dsimp only
    · intro u c2 hu
      by_cases huc : u = t
      · subst huc
        rw [Function.update_same] at hu
        obtain rfl : c = c2 := by simpa [refOf] using hu
        exact hclt
      · rw [Function.update_noteq huc] at hu
        exact href u c2 hu
    · intro c2 hc2
      rw [hcalls_other c2 (by omega)]
      exact hfresh c2 hc2
    · intro t1 t2 c2 h1 h2
      rw [hown_pres t1] at h1
      rw [hown_pres t2] at h2
      exact huniq t1 t2 c2 h1 h2
    · intro u c2 hu
      by_cases huc : u = t
      · subst huc
        rw [Function.update_same] at hu
        exact absurd hu (by simp)
      · rw [Function.update_noteq huc] at hu
        have hne : c2 ≠ c := by
          intro hcontra
          subst hcontra
          exact huc (huniq u t c2 (by rw [hu]; rfl) (by rw [hpc]; rfl))
        rw [hcalls_other c2 hne]
        exact hrun u c2 hu
    · intro u c2 r2 hu
      by_cases huc : u = t
      · subst huc
        rw [Function.update_same] at hu
        have hcr : c2 = c ∧ r2 = r := by
          rcases hu with h | h | h
          · simp only [SFPc.assigned.injEq] at h
            exact ⟨h.1.symm, h.2.symm⟩
          · simp at h
          · simp at h
        obtain ⟨rfl, rfl⟩ := hcr
        rw [hcalls_c]
        exact ⟨rfl, rfl⟩
      · rw [Function.update_noteq huc] at hu
        have hne : c2 ≠ c := by
          intro hcontra
          subst hcontra
          refine huc (huniq u t c2 ?_ (by rw [hpc]; rfl))
          rcases hu with h | h | h <;> rw [h] <;> rfl
        rw [hcalls_other c2 hne]
        exact howned u c2 r2 hu
    · intro c2 hc2
      by_cases hne : c2 = c
      · subst hne
        rw [hcalls_c]
      · rw [hcalls_other c2 hne] at hc2 ⊢
        exact hdone c2 hc2
    · intro c2
      by_cases hne : c2 = c
      · subst hne
        rw [hcalls_c]
      · rw [hcalls_other c2 hne]
        exact hexec c2
    · intro u c2 r2 hu
      by_cases huc : u = t
      · subst huc
        rw [Function.update_same] at hu
        exact absurd hu (by simp)
      · rw [Function.update_noteq huc] at hu
        have hne : c2 ≠ c := by
          intro hcontra
          subst hcontra
          have := (hfin u c2 r2 hu).1
          rw [hfreshc] at this
          simp at this
        rw [hcalls_other c2 hne]
        exact hfin u c2 r2 hu
  | wgDone t c r s hpc =>
    have hov := howned t c r (Or.inl hpc)
    have hclt : c < s.nextId := href t c (by rw [hpc]; rfl)
    have hown_pres := ownerOf_update_pres s.pcs t (.signaled c r)
      (by rw [hpc]; rfl)
    have hcalls_other : ∀ c2, c2 ≠ c →
        Function.update s.calls c
          ⟨(s.calls c).val, true, (s.calls c).execs⟩ c2 = s.calls c2 :=
      fun c2 hc2 => Function.update_noteq hc2 _ _
    have hcalls_c : Function.update s.calls c
        ⟨(s.calls c).val, true, (s.calls c).execs⟩ c =
        ⟨some r, true, 1⟩ := by
      rw [Function.update_same, hov.1, hov.2]
    refine ⟨?_, hcur, ?_, ?_, ?_, ?_, ?_, ?_, ?_⟩
    all_goals dsimp only
    · intro u c2 hu
      by_cases huc : u = t
      · subst huc
        rw [Function.update_same] at hu
        obtain rfl : c = c2 := by simpa [refOf] using hu
        exact hclt
      · rw [Function.update_noteq huc] at hu
        exact href u c2 hu
    · intro c2 hc2
      rw [hcalls_other c2 (by omega)]
      exact hfresh c2 hc2
    · intro t1 t2 c2 h1 h2
      rw [hown_pres t1] at h1
      rw [hown_pres t2] at h2
      exact huniq t1 t2 c2 h1 h2
    · intro u c2 hu
      by_cases huc : u = t
      · subst huc
        rw [Function.update_same] at hu
        exact absurd hu (by simp)
      · rw [Function.update_noteq huc] at hu
        have hne : c2 ≠ c := by
          intro hcontra
          subst hcontra
          exact huc (huniq u t c2 (by rw [hu]; rfl) (by rw [hpc]; rfl))
        rw [hcalls_other c2 hne]
        exact hrun u c2 hu
    · intro u c2 r2 hu
      by_cases huc : u = t
      · subst huc
        rw [Function.update_same] at hu
        have hcr : c2 = c ∧ r2 = r := by
          rcases hu with h | h | h
          · simp at h
          · simp only [SFPc.signaled.injEq] at h
            exact ⟨h.1.symm, h.2.symm⟩
          · simp at h
        obtain ⟨rfl, rfl⟩ := hcr
        rw [hcalls_c]
        exact ⟨rfl, rfl⟩
      · rw [Function.update_noteq huc] at hu
        have hne : c2 ≠ c := by
          intro hcontra
          subst hcontra
          refine huc (huniq u t c2 ?_ (by rw [hpc]; rfl))
          rcases hu with h | h | h <;> rw [h] <;> rfl
        rw [hcalls_other c2 hne]
        exact howned u c2 r2 hu
    · intro c2 hc2
      by_cases hne : c2 = c
      · subst hne
        rw [hcalls_c]
      · rw [hcalls_other c2 hne] at hc2 ⊢
        exact hdone c2 hc2
    · intro c2
      by_cases hne : c2 = c
      · subst hne
        rw [hcalls_c]
      · rw [hcalls_other c2 hne]
        exact hexec c2
    · intro u c2 r2 hu
      by_cases huc : u = t
      · subst huc
        rw [Function.update_same] at hu
        exact absurd hu (by simp)
      · rw [Function.update_noteq huc] at hu
        by_cases hne : c2 = c
        · subst hne
          rw [Function.update_same]
          constructor
          · show (s.calls _).val = some r2
            exact (hfin u _ r2 hu).1
          · show (s.calls _).execs = 1
            exact (hfin u _ r2 hu).2
        · rw [hcalls_other c2 hne]
          exact hfin u c2 r2 hu
  | mapDelete t c r s hpc =>
    have hown_pres := ownerOf_update_pres s.pcs t (.deleted c r)
      (by rw [hpc]; rfl)
    refine ⟨?_, ?_, hfresh, ?_, ?_, ?_, hdone, hexec, ?_⟩
    all_goals dsimp only
    · intro u c2 hu
      by_cases huc : u = t
      · subst huc
        rw [Function.update_same] at hu
        obtain rfl : c = c2 := by simpa [refOf] using hu
        exact href u c (by rw [hpc]; rfl)
      · rw [Function.update_noteq huc] at hu
        exact href u c2 hu
    · intro c2 hc2
      simp at hc2
    · intro t1 t2 c2 h1 h2
      rw [hown_pres t1] at h1
      rw [hown_pres t2] at h2
      exact huniq t1 t2 c2 h1 h2
    · intro u c2 hu
      by_cases huc : u = t
      · subst huc
        rw [Function.update_same] at hu
        exact absurd hu (by simp)
      · rw [Function.update_noteq huc] at hu
        exact hrun u c2 hu
    · intro u c2 r2 hu
      by_cases huc : u = t
      · subst huc
        rw [Function.update_same] at hu
        have hcr : c2 = c ∧ r2 = r := by
          rcases hu with h | h | h
          · simp at h
          · simp at h
          · simp only [SFPc.deleted.injEq] at h
            exact ⟨h.1.symm, h.2.symm⟩
        obtain ⟨rfl, rfl⟩ := hcr
        exact howned _ _ _ (Or.inr (Or.inl hpc))
      · rw [Function.update_noteq huc] at hu
        exact howned u c2 r2 hu
    · intro u c2 r2 hu
      by_cases huc : u = t
      · subst huc
        rw [Function.update_same] at hu
        exact absurd hu (by simp)
      · rw [Function.update_noteq huc] at hu
        exact hfin u c2 r2 hu
  | ownerReturns t c r v s hpc hval =>
    refine ⟨?_, hcur, hfresh, ?_, ?_, ?_, hdone, hexec, ?_⟩
    all_goals dsimp only
    · intro u c2 hu
      by_cases huc : u = t
      · subst huc
        rw [Function.update_same] at hu
        obtain rfl : c = c2 := by simpa [refOf] using hu
        exact href u c (by rw [hpc]; rfl)
      · rw [Function.update_noteq huc] at hu
        exact href u c2 hu
    · intro t1 t2 c2 h1 h2
      by_cases h1t : t1 = t
      · subst h1t
        rw [Function.update_same] at h1
        simp [ownerOf] at h1
      · by_cases h2t : t2 = t
        · subst h2t
          rw [Function.update_same] at h2
          simp [ownerOf] at h2
        · rw [Function.update_noteq h1t] at h1
          rw [Function.update_noteq h2t] at h2
          exact huniq t1 t2 c2 h1 h2
    · intro u c2 hu
      by_cases huc : u = t
      · subst huc
        rw [Function.update_same] at hu
        exact absurd hu (by simp)
      · rw [Function.update_noteq huc] at hu
        exact hrun u c2 hu
    · intro u c2 r2 hu
      by_cases huc : u = t
      · subst huc
        rw [Function.update_same] at hu
        rcases hu with h | h | h <;> simp at h
      · rw [Function.update_noteq huc] at hu
        exact howned u c2 r2 hu
    · intro u c2 r2 hu
      by_cases huc : u = t
      · subst huc
        rw [Function.update_same] at hu
        obtain ⟨rfl, rfl⟩ : c = c2 ∧ v = r2 := by
          simp only [SFPc.finished.injEq] at hu
          exact ⟨hu.1, hu.2⟩
        exact ⟨hval, (howned _ _ _ (Or.inr (Or.inr hpc))).2⟩
      · rw [Function.update_noteq huc] at hu
        exact hfin u c2 r2 hu
  | waiterReturns t c v s hpc hdone2 hval =>
    refine ⟨?_, hcur, hfresh, ?_, ?_, ?_, hdone, hexec, ?_⟩
    all_goals dsimp only
    · intro u c2 hu
      by_cases huc : u = t
      · subst huc
        rw [Function.update_same] at hu
        obtain rfl : c = c2 := by simpa [refOf] using hu
        exact href u c (by rw [hpc]; rfl)
      · rw [Function.update_noteq huc] at hu
        exact href u c2 hu
    · intro t1 t2 c2 h1 h2
      by_cases h1t : t1 = t
      · subst h1t
        rw [Function.update_same] at h1
        simp [ownerOf] at h1
      · by_cases h2t : t2 = t
        · subst h2t
          rw [Function.update_same] at h2
          simp [ownerOf] at h2
        · rw [Function.update_noteq h1t] at h1
          rw [Function.update_noteq h2t] at h2
          exact huniq t1 t2 c2 h1 h2
    · intro u c2 hu
      by_cases huc : u = t
      · subst huc
        rw [Function.update_same] at hu
        exact absurd hu (by simp)
      · rw [Function.update_noteq huc] at hu
        exact hrun u c2 hu
    · intro u c2 r2 hu
      by_cases huc : u = t
      · subst huc
        rw [Function.update_same] at hu
        rcases hu with h | h | h <;> simp at h
      · rw [Function.update_noteq huc] at hu
        exact howned u c2 r2 hu
    · intro u c2 r2 hu
      by_cases huc : u = t
      · subst huc
        rw [Function.update_same] at hu
        obtain ⟨rfl, rfl⟩ : c = c2 ∧ v = r2 := by
          simp only [SFPc.finished.injEq] at hu
          exact ⟨hu.1, hu.2⟩
        exact ⟨hval, hdone c hdone2⟩
      · rw [Function.update_noteq huc] at hu
        exact hfin u c2 r2 hu

theorem SFInv_reachable {n : Nat} (s : SFState n) (h : SFReachable s) :
    SFInv s := by
  induction h with
  | refl => exact SFInv_init n
  | tail _ hstep ih => exact SFInv_step _ _ hstep ih

/-- C1: In every reachable state of the singleflight semantics:
(i) each call record's function ran at most once; (ii) every thread that
finished joined to record `c` returned exactly that record's single
stored result; (iii) any two threads finished on the same record
received the same bytes and the same error; (iv) a thread entering `Do`
while a record is in flight can only join it as a waiter (coalescing
across concurrency); (v) a thread entering `Do` while the map is empty
starts a brand-new record whose function has never run (no coalescing
across time — a call starting after completion executes `fn` afresh);
and (vi) immediately after `fn`'s result is published, the owner's next
map operation deletes the record and empties the map. -/
theorem singleflight_do_spec {n : Nat} (s : SFState n)
    (hreach : SFReachable s) :
    (∀ c, (s.calls c).execs ≤ 1) ∧
    (∀ t c r, s.pcs t = .finished c r →
       (s.calls c).val = some r ∧ (s.calls c).execs = 1) ∧
    (∀ t1 t2 c r1 r2, s.pcs t1 = .finished c r1 →
       s.pcs t2 = .finished c r2 → r1 = r2) ∧
    (∀ t c s2, s.pcs t = .start → s.current = some c → SFStep s s2 →
       s2.pcs t ≠ .start → s2.pcs t = .waiting c) ∧
    (∀ t s2, s.pcs t = .start → s.current = none → SFStep s s2 →
       s2.pcs t ≠ .start →
       s2.pcs t = .running s.nextId ∧ (s.calls s.nextId).execs = 0) ∧
    (∀ t c r s2, s.pcs t = .signaled c r → SFStep s s2 →
       s2.pcs t ≠ .signaled c r →
       s2.current = none ∧ s2.pcs t = .deleted c r) := by
  have hinv := SFInv_reachable s hreach
  refine ⟨hinv.execs_le, ?_, ?_, ?_, ?_, ?_⟩
  · intro t c r hfin
    exact hinv.finished_val t c r hfin
  · intro t1 t2 c r1 r2 h1 h2
    have hv1 := (hinv.finished_val t1 c r1 h1).1
    have hv2 := (hinv.finished_val t2 c r2 h2).1
    rw [hv1] at hv2
    exact (Option.some.injEq _ _).mp hv2
  · intro t c s2 hpc hcur hstep hne
    cases hstep with
    | enterJoin u c2 s hpcu hcuru =>
      by_cases hut : u = t
      · subst hut
        rw [hcuru] at hcur
        obtain rfl : c2 = c := by simpa using hcur
        dsimp only
        rw [Function.update_same]
      · refine absurd ?_ hne
        dsimp only
        rw [Function.update_noteq (fun hcontra => hut hcontra.symm)]
        exact hpc
    | enterOwn u s hpcu hcuru =>
      rw [hcuru] at hcur
      simp at hcur
    | fnReturns u c2 r s hpcu =>
      by_cases hut : u = t
      · subst hut
        rw [hpc] at hpcu
        simp at hpcu
      · refine absurd ?_ hne
        dsimp only
        rw [Function.update_noteq (fun hcontra => hut hcontra.symm)]
        exact hpc
    | wgDone u c2 r s hpcu =>
      by_cases hut : u = t
      · subst hut
        rw [hpc] at hpcu
        simp at hpcu
      · refine absurd ?_ hne
        dsimp only
        rw [Function.update_noteq (fun hcontra => hut hcontra.symm)]
        exact hpc
    | mapDelete u c2 r s hpcu =>
      by_cases hut : u = t
      · subst hut
        rw [hpc] at hpcu
        simp at hpcu
      · refine absurd ?_ hne
        dsimp only
        rw [Function.update_noteq (fun hcontra => hut hcontra.symm)]
        exact hpc
    | ownerReturns u c2 r v s hpcu hvalu =>
      by_cases hut : u = t
      · subst hut
        rw [hpc] at hpcu
        simp at hpcu
      · refine absurd ?_ hne
        dsimp only
        rw [Function.update_noteq (fun hcontra => hut hcontra.symm)]
        exact hpc
    | waiterReturns u c2 v s hpcu hdoneu hvalu =>
      by_cases hut : u = t
      · subst hut
        rw [hpc] at hpcu
        simp at hpcu
      · refine absurd ?_ hne
        dsimp only
        rw [Function.update_noteq (fun hcontra => hut hcontra.symm)]
        exact hpc
  · intro t s2 hpc hcur hstep hne
    cases hstep with
    | enterJoin u c2 s hpcu hcuru =>
      rw [hcuru] at hcur
      simp at hcur
    | enterOwn u s hpcu hcuru =>
      by_cases hut : u = t
      · subst hut
        constructor
        · dsimp only
          rw [Function.update_same]
        · have := (SFInv_reachable s hreach).fresh s.nextId (le_refl _)
          rw [this]
      · refine absurd ?_ hne
        dsimp only
        rw [Function.update_noteq (fun hcontra => hut hcontra.symm)]
        exact hpc
    | fnReturns u c2 r s hpcu =>
      by_cases hut : u = t
      · subst hut
        rw [hpc] at hpcu
        simp at hpcu
      · refine absurd ?_ hne
        dsimp only
        rw [Function.update_noteq (fun hcontra => hut hcontra.symm)]
        exact hpc
    | wgDone u c2 r s hpcu =>
      by_cases hut : u = t
      · subst hut
        rw [hpc] at hpcu
        simp at hpcu
      · refine absurd ?_ hne
        dsimp only
        rw [Function.update_noteq (fun hcontra => hut hcontra.symm)]
        exact hpc
    | mapDelete u c2 r s hpcu =>
      by_cases hut : u = t
      · subst hut
        rw [hpc] at hpcu
        simp at hpcu
      · refine absurd ?_ hne
        dsimp only
        rw [Function.update_noteq (fun hcontra => hut hcontra.symm)]
        exact hpc
    | ownerReturns u c2 r v s hpcu hvalu =>
      by_cases hut : u = t
      · subst hut
        rw [hpc] at hpcu
        simp at hpcu
      · refine absurd ?_ hne
        dsimp only
        rw [Function.update_noteq (fun hcontra => hut hcontra.symm)]
        exact hpc
    | waiterReturns u c2 v s hpcu hdoneu hvalu =>
      by_cases hut : u = t
      · subst hut
        rw [hpc] at hpcu
        simp at hpcu
      · refine absurd ?_ hne
        dsimp only
        rw [Function.update_noteq (fun hcontra => hut hcontra.symm)]
        exact hpc
  · intro t c r s2 hpc hstep hne
    cases hstep with
    | enterJoin u c2 s hpcu hcuru =>
      by_cases hut : u = t
      · subst hut
        rw [hpc] at hpcu
        simp at hpcu
      · refine absurd ?_ hne
        dsimp only
        rw [Function.update_noteq (fun hcontra => hut hcontra.symm)]
        exact hpc
    | enterOwn u s hpcu hcuru =>
      by_cases hut : u = t
      · subst hut
        rw [hpc] at hpcu
        simp at hpcu
      · refine absurd ?_ hne
        dsimp only
        rw [Function.update_noteq (fun hcontra => hut hcontra.symm)]
        exact hpc
    | fnReturns u c2 r2 s hpcu =>
      by_cases hut : u = t
      · subst hut
        rw [hpc] at hpcu
        simp at hpcu
      · refine absurd ?_ hne
        dsimp only
        rw [Function.update_noteq (fun hcontra => hut hcontra.symm)]
        exact hpc
    | wgDone u c2 r2 s hpcu =>
      by_cases hut : u = t
      · subst hut
        rw [hpc] at hpcu
        simp at hpcu
      · refine absurd ?_ hne
        dsimp only
        rw [Function.update_noteq (fun hcontra => hut hcontra.symm)]
        exact hpc
    | mapDelete u c2 r2 s hpcu =>
      by_cases hut : u = t
      · subst hut
        rw [hpc] at hpcu
        obtain ⟨rfl, rfl⟩ : c2 = c ∧ r2 = r := by
          simp only [SFPc.signaled.injEq] at hpcu
          exact ⟨hpcu.1.symm, hpcu.2.symm⟩
        constructor
        · rfl
        · dsimp only
          rw [Function.update_same]
      · refine absurd ?_ hne
        dsimp only
        rw [Function.update_noteq (fun hcontra => hut hcontra.symm)]
        exact hpc
    | ownerReturns u c2 r2 v s hpcu hvalu =>
      by_cases hut : u = t
      · subst hut
        rw [hpc] at hpcu
        simp at hpcu
      · refine absurd ?_ hne
        dsimp only
        rw [Function.update_noteq (fun hcontra => hut hcontra.symm)]
        exact hpc
    | waiterReturns u c2 v s hpcu hdoneu hvalu =>
      by_cases hut : u = t
      · subst hut
        rw [hpc] at hpcu
        simp at hpcu
      · refine absurd ?_ hne
        dsimp only
        rw [Function.update_noteq (fun hcontra => hut hcontra.symm)]
        exact hpc

/-- The witness interleaving: thread 0 inserts and owns the record,
thread 1 joins while it is in flight, the owner publishes the result,
signals, deletes the record and returns; the waiter then returns. -/
theorem sfReach7 : SFReachable sfS7 :=
  (((((((Relation.ReflTransGen.refl.tail
    (SFStep.enterOwn 0 sfS0 rfl rfl)).tail
    (SFStep.enterJoin 1 0 sfS1 rfl rfl)).tail
    (SFStep.fnReturns 0 0 sfRes1 sfS2 rfl)).tail
    (SFStep.wgDone 0 0 sfRes1 sfS3 rfl)).tail
    (SFStep.mapDelete 0 0 sfRes1 sfS4 rfl)).tail
    (SFStep.ownerReturns 0 0 sfRes1 sfRes1 sfS5 rfl rfl)).tail
    (SFStep.waiterReturns 1 0 sfRes1 sfS6 rfl rfl rfl))

/-- Witness for `singleflight_do_spec`: after the concrete two-thread
interleaving, both threads finished on the same record with the same
result, and the record's function ran exactly once. -/
theorem singleflight_do_spec_witness :
    sfS7.pcs 0 = .finished 0 sfRes1 ∧
    sfS7.pcs 1 = .finished 0 sfRes1 ∧
    (sfS7.calls 0).execs = 1 ∧
    (∀ c, (sfS7.calls c).execs ≤ 1) ∧
    (∀ t1 t2 : Fin 2, ∀ c, ∀ r1 r2 : SFRes,
       sfS7.pcs t1 = .finished c r1 → sfS7.pcs t2 = .finished c r2 →
       r1 = r2) := by
  have h := singleflight_do_spec sfS7 sfReach7
  exact ⟨by decide, by decide, by decide, h.1, h.2.2.1⟩
